import Mathlib

/-!
Verification of the bucketed allocator in `src/opt_malloc.c`.

The C code is shallowly embedded: 64-bit machine words become `Nat` with
explicit bounds (`< 2 ^ 64`) where they matter, the 256-bit occupancy
bitmaps become a four-word structure mirroring `struct bitstring`, and the
mutable global allocator state becomes an explicit state record threaded
through the operations.  The OS mapping layer (`mmap`/`munmap`) is modelled
by a monotone fresh-address counter together with ghost logs of every
mapping and unmapping request; `mmap` never fails in the model because the
C code treats mapping failure as a fatal abort (`check_map`).
-/

set_option maxRecDepth 4096

/-! ### Bitmaps: `struct bitstring` and its operations (opt_malloc.c lines 36-103)

`s0`, `s1`, `s2`, `s3` are the array cells `s[0]`, `s[1]`, `s[2]`, `s[3]`.
Each holds a 64-bit word, represented as a `Nat` that is `< 2 ^ 64` for all
values actually constructed by the code (`validB`). -/

structure bitstring where
  s0 : Nat
  s1 : Nat
  s2 : Nat
  s3 : Nat
deriving DecidableEq

/-- All four words are genuine 64-bit values. -/
def validB (a : bitstring) : Prop :=
  a.s0 < 2 ^ 64 ∧ a.s1 < 2 ^ 64 ∧ a.s2 < 2 ^ 64 ∧ a.s3 < 2 ^ 64

instance : DecidablePred validB := fun a => by unfold validB; infer_instance

def FULL_ULL : Nat := 0xFFFFFFFFFFFFFFFF

def FILLED_STRING : bitstring := ⟨FULL_ULL, FULL_ULL, FULL_ULL, FULL_ULL⟩

def EMPTY_STRING : bitstring := ⟨0, 0, 0, 0⟩

/-- C function `AND` (bitwise intersection, result stored into `a`). -/
def AND (a b : bitstring) : bitstring :=
  ⟨a.s0 &&& b.s0, a.s1 &&& b.s1, a.s2 &&& b.s2, a.s3 &&& b.s3⟩

/-- C function `OR`. -/
def OR (a b : bitstring) : bitstring :=
  ⟨a.s0 ||| b.s0, a.s1 ||| b.s1, a.s2 ||| b.s2, a.s3 ||| b.s3⟩

/-- C function `EQUAL`: component-wise comparison of the four words. -/
def EQUAL (a b : bitstring) : Bool :=
  a.s0 == b.s0 && a.s1 == b.s1 && a.s2 == b.s2 && a.s3 == b.s3

/-- C function `NOT`: 64-bit complement of each word (`~x` on a value
`< 2 ^ 64` equals `x ^^^ 0xFFFFFFFFFFFFFFFF`). -/
def NOT (a : bitstring) : bitstring :=
  ⟨a.s0 ^^^ FULL_ULL, a.s1 ^^^ FULL_ULL, a.s2 ^^^ FULL_ULL, a.s3 ^^^ FULL_ULL⟩

/-- 64-bit complement, used to express `~x` inside `NFFS`. -/
def complement64 (x : Nat) : Nat := x ^^^ FULL_ULL

/-- Least index `< n` at which `x` has a set bit, if any.  This is the
search performed by the hardware `ffsll` primitive (restricted to 64). -/
def lsbBelow (x : Nat) : Nat → Option Nat
  | 0 => none
  | n + 1 =>
    match lsbBelow x n with
    | some i => some i
    | none => if x.testBit n then some n else none

/-- `__builtin_ffsll`: one plus the index of the least significant set bit,
or `0` when no bit among the low 64 is set. -/
def ffsll (x : Nat) : Nat :=
  match lsbBelow x 64 with
  | some i => i + 1
  | none => 0

/-- C function `NFFS` (opt_malloc.c lines 73-89): one plus the index of the
least significant 0 bit of the 256-bit map, scanning word `s[3]` first,
then `s[2]`, `s[1]`, `s[0]`; returns 0 when the map is full. -/
def NFFS (a : bitstring) : Nat :=
  let pos0 := ffsll (complement64 a.s0)
  let pos1 := ffsll (complement64 a.s1)
  let pos2 := ffsll (complement64 a.s2)
  let pos3 := ffsll (complement64 a.s3)
  if pos3 ≠ 0 then pos3
  else if pos2 ≠ 0 then pos2 + 64
  else if pos1 ≠ 0 then pos1 + 128
  else if pos0 ≠ 0 then pos0 + 192
  else 0

/-- C function `FLIP` (opt_malloc.c lines 92-103): XOR the bit at `index`
under the same word order `NFFS` uses (`s[3]` holds indices 0-63, `s[2]`
indices 64-127, and so on).  The C code asserts `0 ≤ index < 256`; every
call site below satisfies that bound. -/
def FLIP (a : bitstring) (index : Nat) : bitstring :=
  if index ≤ 63 then { a with s3 := a.s3 ^^^ (1 <<< index) }
  else if index ≤ 127 then { a with s2 := a.s2 ^^^ (1 <<< (index - 64)) }
  else if index ≤ 191 then { a with s1 := a.s1 ^^^ (1 <<< (index - 128)) }
  else { a with s0 := a.s0 ^^^ (1 <<< (index - 192)) }

/-- Reading bit `i` of the 256-bit map under the `NFFS`/`FLIP` index order. -/
def bitAt (a : bitstring) (i : Nat) : Bool :=
  if i < 64 then a.s3.testBit i
  else if i < 128 then a.s2.testBit (i - 64)
  else if i < 192 then a.s1.testBit (i - 128)
  else a.s0.testBit (i - 192)

/-- Number of clear (free) bits in a 256-bit map. -/
def zeroCount (a : bitstring) : Nat :=
  ((List.range 256).filter (fun i => ! bitAt a i)).length

/-! ### The hard-coded bucket tables (opt_malloc.c lines 132-157) -/

def BUCKET24 : bitstring := ⟨FULL_ULL, 0xFFFFFF0000000000, 0, 0⟩
def BUCKET32 : bitstring := ⟨FULL_ULL, FULL_ULL, 0xC000000000000000, 0⟩
def BUCKET40 : bitstring := ⟨FULL_ULL, FULL_ULL, 0xFFFFFFF000000000, 0⟩
def BUCKET72 : bitstring := ⟨FULL_ULL, FULL_ULL, FULL_ULL, 0xFF00000000000000⟩
def BUCKET520 : bitstring := ⟨FULL_ULL, FULL_ULL, FULL_ULL, 0xC000000000000000⟩
def BUCKET1032 : bitstring := ⟨FULL_ULL, FULL_ULL, FULL_ULL, 0x8000000000000000⟩
def BUCKET2056 : bitstring := ⟨FULL_ULL, FULL_ULL, FULL_ULL, 0xFFFFFFFF80000000⟩
def BUCKET4104 : bitstring := ⟨FULL_ULL, FULL_ULL, FULL_ULL, 0xFFFFFFFFFFFF8000⟩

def SUPPORTED_BUCKETS_BITSTRINGS : List bitstring :=
  [BUCKET24, BUCKET32, BUCKET40, BUCKET72, BUCKET520, BUCKET1032, BUCKET2056, BUCKET4104]

def SUPPORTED_BUCKETS_SIZES : List Nat :=
  [24, 32, 40, 72, 520, 1032, 2056, 4104]

def SUPPORTED_BUCKETS_PAGES : List Nat :=
  [1, 1, 1, 1, 8, 16, 16, 16]

/-- Slot counts implied by the bitstring patterns (the code's comments:
168, 126, 100, 56, 62, 63, 31, 15). -/
def BUCKET_SLOT_COUNTS : List Nat :=
  [168, 126, 100, 56, 62, 63, 31, 15]

def bucketPattern (b : Nat) : bitstring := SUPPORTED_BUCKETS_BITSTRINGS.getD b FILLED_STRING

def bucketSize (b : Nat) : Nat := SUPPORTED_BUCKETS_SIZES.getD b 0

def bucketPages (b : Nat) : Nat := SUPPORTED_BUCKETS_PAGES.getD b 0

def slotCount (b : Nat) : Nat := BUCKET_SLOT_COUNTS.getD b 0

/-! ### Struct layout constants (x86-64 layout of the structs in opt_malloc.c) -/

def PAGE_SIZE : Nat := 4096

/-- `sizeof(block_head)`: one pointer, the back-reference. -/
def SIZEOF_BLOCK_HEAD : Nat := 8

/-- `sizeof(chunk_head)`: a `size_t` plus a `long`. -/
def SIZEOF_CHUNK_HEAD : Nat := 16

/-- `sizeof(bucket_head)`: `chunk_head` (16) + `next` (8) + `prev` (8) +
a 32-byte `bitstring`. -/
def SIZEOF_BUCKET_HEAD : Nat := 64

/-! ### Pure helpers of the dispatch layer -/

/-- Loop body of C function `get_bucket` (opt_malloc.c lines 203-211):
walk the size table with a running index, returning the first index whose
size is strictly greater than `bytes` (the C comparison is `bytes <
bucket_size`), or `-1` if none is. -/
def get_bucketAux (bytes : Nat) : List Nat → Nat → Int
  | [], _ => -1
  | sz :: rest, i => if bytes < sz then Int.ofNat i else get_bucketAux bytes rest (i + 1)

/-- C function `get_bucket`. -/
def get_bucket (bytes : Nat) : Int :=
  get_bucketAux bytes SUPPORTED_BUCKETS_SIZES 0

/-- C function `pages_needed` (opt_malloc.c lines 219-226). -/
def pages_needed (bytes : Nat) : Nat :=
  let pages := bytes / PAGE_SIZE
  if pages * PAGE_SIZE < bytes then pages + 1 else pages


/-! ### Allocator state model

The global mutable state of opt_malloc.c (`head_bucket_list`, the
`initialized` flag) together with a model of the process address space.

* A `BucketChunk` is the in-memory `bucket_head` of one mapped chunk:
  its base address, the `chunk_size` and `bucket_index` header fields and
  the `allocations` bitmap.  List membership replaces the `next`/`prev`
  ring around the sentinel: `lists` holds, per class, the linked chunks in
  ring order starting at the sentinel's `next`.
* A `BigChunk` is the `chunk_head` of a large (non-bucketed) mapping, with
  `bucket_index = -1` in the C header.  `mapped_len` is the actual length
  `mmap` was called with (ghost data: the OS knows it, the header does not
  store it).
* `backrefs` models the `block_head` words the code writes in front of
  every allocation: an association list from the address of a
  `block_head` to the `parent_chunk` address stored there.  `xfree` reads
  the word back through this list; a lookup miss models a wild
  dereference (undefined behavior in C).
* `leaked` (ghost) collects bucket chunks that `xfree` unlinked from
  their list; the C code never unmaps them, so their pages stay mapped.
* `next_addr`, `mapped`, `munmap_log` model the OS: `mmap` returns fresh
  page-aligned addresses from a monotone counter and records every
  mapping; `munmap` records the address/length pair it was asked to
  release. -/

structure BucketChunk where
  base : Nat
  bucket_index : Nat
  chunk_size : Nat
  allocations : bitstring
deriving DecidableEq

structure BigChunk where
  base : Nat
  chunk_size : Nat
  mapped_len : Nat
deriving DecidableEq

structure AllocState where
  inited : Bool
  lists : List (List BucketChunk)
  bigs : List BigChunk
  leaked : List BucketChunk
  backrefs : List (Nat × Nat)
  next_addr : Nat
  mapped : List (Nat × Nat)
  munmap_log : List (Nat × Nat)
deriving DecidableEq

/-- The program's start state: nothing mapped, flag clear, the static
`head_bucket_list` array not yet threaded into rings (empty lists). -/
def initState : AllocState :=
  { inited := false
    lists := List.replicate 8 []
    bigs := []
    leaked := []
    backrefs := []
    next_addr := PAGE_SIZE
    mapped := []
    munmap_log := [] }

/-- OS model for `mmap(0, len, ...)`: return a fresh region.  The C code
aborts on `MAP_FAILED` (`check_map`), so the model is total. -/
def os_mmap (s : AllocState) (len : Nat) : Nat × AllocState :=
  (s.next_addr,
   { s with next_addr := s.next_addr + len, mapped := (s.next_addr, len) :: s.mapped })

/-- C function `initialize` (opt_malloc.c lines 183-194), renamed here:
on the first call, thread every sentinel into an empty ring (model: empty
list per class) and set the flag; afterwards do nothing. -/
def init_lists (s : AllocState) : AllocState :=
  if s.inited then s
  else { s with inited := true, lists := List.replicate 8 [] }

/-- C function `xbig_malloc` (opt_malloc.c lines 250-264): map fresh pages,
write the `chunk_head` (`chunk_size := big_alloc_size`,
`bucket_index := -1`), write the `block_head` back-reference just after
it, and return the byte after the back-reference.  `big_alloc_size` is a
`size_t` sum and wraps modulo `2 ^ 64`.  When the wrapped size is 0 the
computed page count is 0 and `mmap(0, 0, ...)` fails (POSIX `EINVAL`), so
`check_map` aborts the program: the model returns `none`.  A positive
`mmap` is modelled as always succeeding (idealized unbounded memory). -/
def xbig_malloc (size : Nat) (s : AllocState) : Option (Nat × AllocState) :=
  let big_alloc_size := (size + SIZEOF_CHUNK_HEAD) % 2 ^ 64
  let pages := pages_needed big_alloc_size
  if pages = 0 then none
  else
    let (map, s1) := os_mmap s (pages * PAGE_SIZE)
    let s2 := { s1 with bigs := ⟨map, big_alloc_size, pages * PAGE_SIZE⟩ :: s1.bigs }
    let location := map + SIZEOF_CHUNK_HEAD
    let s3 := { s2 with backrefs := (location, map) :: s2.backrefs }
    some (location + SIZEOF_BLOCK_HEAD, s3)

/-- C function `allocate_bucket` (opt_malloc.c lines 272-289): map a fresh
chunk for class `b_index`, fill in its header and its initial occupancy
bitmap, and link it directly behind the sentinel (head of the list). -/
def allocate_bucket (b_index : Nat) (s : AllocState) : AllocState :=
  let chunk_size := bucketPages b_index * PAGE_SIZE
  let (map, s1) := os_mmap s chunk_size
  let c : BucketChunk := ⟨map, b_index, chunk_size, bucketPattern b_index⟩
  { s1 with lists := s1.lists.set b_index (c :: s1.lists.getD b_index []) }

/-- First index in `l` satisfying `p`, scanning front to back (the list
walk from the sentinel's `next` in `find_free_bucket_space`). -/
def findIdxFrom (p : α → Bool) : List α → Option Nat
  | [] => none
  | a :: l => if p a then some 0 else (findIdxFrom p l).map (· + 1)

/-- C function `find_free_bucket_space` (opt_malloc.c lines 297-314): walk
the class list for the first chunk whose bitmap is not entirely ones; if
the walk returns to the sentinel, allocate a fresh chunk (which becomes
the head, position 0).  Returns the position of the chosen chunk. -/
def find_free_bucket_space (b_index : Nat) (s : AllocState) : Nat × AllocState :=
  match findIdxFrom (fun c => ! EQUAL c.allocations FILLED_STRING) (s.lists.getD b_index []) with
  | some i => (i, s)
  | none => (0, allocate_bucket b_index s)

/-- C function `xmalloc` (opt_malloc.c lines 322-343).  The local
`size_t size = bytes + sizeof(block_head)` wraps modulo `2 ^ 64`.  A
`none` result is the abort inherited from `xbig_malloc`; the `get?`
fallback arm is unreachable (`find_free_bucket_space` always returns an
index holding a chunk). -/
def xmalloc (bytes : Nat) (s0 : AllocState) : Option (Nat × AllocState) :=
  let s := init_lists s0
  let size := (bytes + SIZEOF_BLOCK_HEAD) % 2 ^ 64
  let b := get_bucket size
  if b = -1 then xbig_malloc size s
  else
    let bn := b.toNat
    let (i, s1) := find_free_bucket_space bn s
    match (s1.lists.getD bn []).get? i with
    | none => none
    | some c =>
      let free_index := NFFS c.allocations - 1
      let c' := { c with allocations := FLIP c.allocations free_index }
      let s2 := { s1 with lists := s1.lists.set bn ((s1.lists.getD bn []).set i c') }
      let location := c.base + SIZEOF_BUCKET_HEAD + free_index * bucketSize bn
      let s3 := { s2 with backrefs := (location, c.base) :: s2.backrefs }
      some (location + SIZEOF_BLOCK_HEAD, s3)

/-- Association-list lookup modelling a read of the `block_head` word that
the allocator previously wrote at address `a`. -/
def assocLookup (a : Nat) : List (Nat × Nat) → Option Nat
  | [] => none
  | e :: l => if e.1 = a then some e.2 else assocLookup a l

/-- Locate the (unique) linked bucket chunk whose base address is `cbase`:
class index and position within that class list. -/
def findChunkIn : List (List BucketChunk) → Nat → Option (Nat × Nat)
  | [], _ => none
  | lst :: rest, cbase =>
    match findIdxFrom (fun c => c.base == cbase) lst with
    | some i => some (0, i)
    | none => (findChunkIn rest cbase).map (fun bi => (bi.1 + 1, bi.2))

/-- C function `xbig_free` (opt_malloc.c lines 350-353): `munmap` the whole
chunk with the `chunk_size` stored in its header. -/
def xbig_free (g : BigChunk) (s : AllocState) : AllocState :=
  { s with bigs := s.bigs.eraseP (fun c => c.base == g.base)
           munmap_log := (g.base, g.chunk_size) :: s.munmap_log }

/-- C function `xfree` (opt_malloc.c lines 360-384).  The C code reads the
back-reference at `ptr - sizeof(block_head)` unconditionally; a `none`
result models a dereference of memory this allocator never wrote
(e.g. `xfree(NULL)`), which is undefined behavior in the C program.
For a bucketed chunk the slot bit is flipped off and, when the bitmap
returns to the class's initial pattern, the chunk is unlinked from its
ring — the C code does not `munmap` it, so the model moves it to the
ghost `leaked` list.  A back-reference to an already-unlinked chunk
(impossible when freeing only live pointers) would make the C code write
through the stale `next`/`prev` pointers; the model returns `none`. -/
def xfree (ptr : Nat) (s : AllocState) : Option AllocState :=
  let item_head := ptr - SIZEOF_BLOCK_HEAD
  match assocLookup item_head s.backrefs with
  | none => none
  | some cbase =>
    match s.bigs.find? (fun c => c.base == cbase) with
    | some g => some (xbig_free g s)
    | none =>
      match findChunkIn s.lists cbase with
      | none => none
      | some (b, i) =>
        match (s.lists.getD b []).get? i with
        | none => none
        | some c =>
          let b_index := c.bucket_index
          let item_index := (item_head - (cbase + SIZEOF_BUCKET_HEAD)) / bucketSize b_index
          let c' := { c with allocations := FLIP c.allocations item_index }
          if EQUAL c'.allocations (bucketPattern b_index) then
            some { s with lists := s.lists.set b ((s.lists.getD b []).eraseIdx i)
                          leaked := c' :: s.leaked }
          else
            some { s with lists := s.lists.set b ((s.lists.getD b []).set i c') }

/-- C function `xrealloc` (opt_malloc.c lines 386-388): the body is
`return 0;` — it ignores both arguments and changes nothing. -/
def xrealloc (prev : Nat) (bytes : Nat) (s : AllocState) : Nat × AllocState :=
  (0, s)

/-! ### Traces of public operations

`exec` runs a sequence of `allocate`/`free` calls from the program start
state, recording the live set (pointer and requested byte count) and every
pointer `xmalloc` ever returned.  A `free` step is only permitted on a
currently live pointer — the discipline assumed by the spec — and fails
(`none`) if `xfree` hits undefined behavior. -/

inductive AllocOp where
  | alloc (bytes : Nat)
  | free (ptr : Nat)
deriving DecidableEq

structure TraceState where
  s : AllocState
  live : List (Nat × Nat)
  log : List Nat
deriving DecidableEq

def execOp (t : TraceState) : AllocOp → Option TraceState
  | .alloc n =>
    match xmalloc n t.s with
    | none => none
    | some (p, s') => some ⟨s', (p, n) :: t.live, p :: t.log⟩
  | .free p =>
    if (t.live.find? (fun e => e.1 == p)).isSome then
      match xfree p t.s with
      | some s' => some ⟨s', t.live.eraseP (fun e => e.1 == p), t.log⟩
      | none => none
    else none

def exec (ops : List AllocOp) : Option TraceState :=
  ops.foldlM execOp ⟨initState, [], []⟩

/-- An operation whose 64-bit footprint arithmetic does not wrap: for an
allocation the `size_t` sums `bytes + sizeof(block_head)` and
`bytes + sizeof(block_head) + sizeof(chunk_head)` stay below `2 ^ 64`.
A `free` never wraps. -/
def NoWrap : AllocOp → Prop
  | AllocOp.alloc n => n + SIZEOF_BLOCK_HEAD + SIZEOF_CHUNK_HEAD < 2 ^ 64
  | AllocOp.free _ => True

instance : (op : AllocOp) → Decidable (NoWrap op)
  | AllocOp.alloc n =>
    inferInstanceAs (Decidable (n + SIZEOF_BLOCK_HEAD + SIZEOF_CHUNK_HEAD < 2 ^ 64))
  | AllocOp.free _ => inferInstanceAs (Decidable True)


/-! ### Invariant of reachable allocator states

These definitions support the proofs about whole traces: every mapped
region is disjoint from every other, live pointers sit inside their
chunk's slots, and the ghost logs are consistent. -/

/-- Two `(base, length)` regions do not overlap. -/
def RDisj (r1 r2 : Nat × Nat) : Prop := r1.1 + r1.2 ≤ r2.1 ∨ r2.1 + r2.2 ≤ r1.1

def joinL : List (List α) → List α
  | [] => []
  | l :: ls => l ++ joinL ls

def bucketRange (c : BucketChunk) : Nat × Nat := (c.base, c.chunk_size)

def bigRange (g : BigChunk) : Nat × Nat := (g.base, g.mapped_len)

/-- Every region currently mapped on behalf of the allocator: linked
bucket chunks, leaked (unlinked but never unmapped) bucket chunks, and
large chunks. -/
def chunkRanges (s : AllocState) : List (Nat × Nat) :=
  (joinL s.lists).map bucketRange ++ s.leaked.map bucketRange ++ s.bigs.map bigRange

/-- A region is nonempty, starts at or after the first page the model
hands out, and ends at or before the next free address. -/
def RangeWF (next : Nat) (r : Nat × Nat) : Prop :=
  PAGE_SIZE ≤ r.1 ∧ r.1 + r.2 ≤ next ∧ 0 < r.2

/-- Well-formedness of a bucket chunk linked in class `b`: header fields
as `allocate_bucket` wrote them, a valid bitmap that keeps all the
sentinel bits of the class pattern set, and a region recorded by `mmap`. -/
def BucketWF (next : Nat) (mapped : List (Nat × Nat)) (b : Nat) (c : BucketChunk) : Prop :=
  c.bucket_index = b ∧
  c.chunk_size = bucketPages b * PAGE_SIZE ∧
  validB c.allocations ∧
  (∀ i, i < 256 → bitAt (bucketPattern b) i = true → bitAt c.allocations i = true) ∧
  RangeWF next (bucketRange c) ∧
  (c.base, c.chunk_size) ∈ mapped

def BigWF (next : Nat) (mapped : List (Nat × Nat)) (g : BigChunk) : Prop :=
  0 < g.chunk_size ∧ g.chunk_size ≤ g.mapped_len ∧
  RangeWF next (bigRange g) ∧ (g.base, g.mapped_len) ∈ mapped ∧
  PAGE_SIZE ≤ g.mapped_len

/-- Every `munmap` call so far named a mapped region's base and a positive
length not exceeding what was mapped there. -/
def MunmapWF (mapped : List (Nat × Nat)) (e : Nat × Nat) : Prop :=
  0 < e.2 ∧ ∃ mlen, (e.1, mlen) ∈ mapped ∧ e.2 ≤ mlen

/-- A live allocation `(ptr, bytes)` carved from a bucket chunk: its slot
index is in range, its occupancy bit is set, the pointer is the slot base
plus the back-reference word, the request fits in the slot, and the
back-reference word reads back as the chunk's address. -/
def LiveInBucket (s : AllocState) (e : Nat × Nat) : Prop :=
  ∃ b c i, b < 8 ∧ c ∈ s.lists.getD b [] ∧ i < slotCount b ∧
    bitAt c.allocations i = true ∧
    e.1 = c.base + SIZEOF_BUCKET_HEAD + i * bucketSize b + SIZEOF_BLOCK_HEAD ∧
    e.2 + SIZEOF_BLOCK_HEAD < bucketSize b ∧
    assocLookup (c.base + SIZEOF_BUCKET_HEAD + i * bucketSize b) s.backrefs = some c.base

/-- A live large allocation: its chunk is present, the stored
`chunk_size` is exactly header + back-reference + caller bytes, and the
back-reference reads back as the chunk's address. -/
def LiveInBig (s : AllocState) (e : Nat × Nat) : Prop :=
  ∃ g, g ∈ s.bigs ∧ e.1 = g.base + SIZEOF_CHUNK_HEAD + SIZEOF_BLOCK_HEAD ∧
    e.2 + SIZEOF_BLOCK_HEAD + SIZEOF_CHUNK_HEAD = g.chunk_size ∧
    assocLookup (g.base + SIZEOF_CHUNK_HEAD) s.backrefs = some g.base

def LiveWF (s : AllocState) (e : Nat × Nat) : Prop := LiveInBucket s e ∨ LiveInBig s e

/-- The usable byte ranges of two allocations do not overlap. -/
def UDisj (e1 e2 : Nat × Nat) : Prop := e1.1 + e1.2 ≤ e2.1 ∨ e2.1 + e2.2 ≤ e1.1

/-- Invariant of every reachable trace state. -/
structure TraceInv (t : TraceState) : Prop where
  uninit : t.s.inited = false → t.s.lists = List.replicate 8 []
  lists_len : t.s.lists.length = 8
  chunks_wf : ∀ b, b < 8 → ∀ c ∈ t.s.lists.getD b [], BucketWF t.s.next_addr t.s.mapped b c
  leaked_wf : ∀ c ∈ t.s.leaked, RangeWF t.s.next_addr (bucketRange c)
  bigs_wf : ∀ g ∈ t.s.bigs, BigWF t.s.next_addr t.s.mapped g
  ranges_disj : (chunkRanges t.s).Pairwise RDisj
  live_wf : ∀ e ∈ t.live, LiveWF t.s e
  live_disj : t.live.Pairwise UDisj
  live_ptr_ne : t.live.Pairwise (fun e1 e2 => e1.1 ≠ e2.1)
  log_nz : ∀ p ∈ t.log, p ≠ 0
  munmap_ok : ∀ e ∈ t.s.munmap_log, MunmapWF t.s.mapped e
  page_le_next : PAGE_SIZE ≤ t.s.next_addr

/-- Well-formedness of one back-reference word `(key, cbase)` the
allocator wrote: the stored value is an address below the allocation
frontier, and the word sits either just after a `chunk_head` (large
allocation) or on the slot grid of the chunk at `cbase` — and every chunk
currently linked with that base belongs to the class the grid was written
for (bases are never reused, so this pins the slot index down). -/
def BackrefWF (lists : List (List BucketChunk)) (next : Nat) (e : Nat × Nat) : Prop :=
  e.2 < next ∧
  (e.1 = e.2 + SIZEOF_CHUNK_HEAD ∨
   ∃ b k, b < 8 ∧ k < slotCount b ∧
     e.1 = e.2 + SIZEOF_BUCKET_HEAD + k * bucketSize b ∧
     ∀ b' c, b' < 8 → c ∈ lists.getD b' [] → c.base = e.2 → c.bucket_index = b)

/-- The state-only invariant: it holds in every reachable allocator state,
with no condition on the trace's allocation sizes (unlike the live-set
facts of `TraceInv`, which fail once a `size_t` footprint wraps). -/
structure SInv (s : AllocState) : Prop where
  base : TraceInv ⟨s, [], []⟩
  brefs : ∀ e ∈ s.backrefs, BackrefWF s.lists s.next_addr e

/-- A one-chunk allocator state used to exercise the bucket-carve path on a
concrete input: class 1 holds a single fresh chunk at 4096. -/
def cW : BucketChunk := ⟨4096, 1, 4096, bucketPattern 1⟩

def sW : AllocState :=
  { inited := true
    lists := (List.replicate 8 []).set 1 [cW]
    bigs := []
    leaked := []
    backrefs := []
    next_addr := 8192
    mapped := [(4096, 4096)]
    munmap_log := [] }

/-- The state reached by a small allocation (used as a concrete state). -/
def t3 : TraceState := (exec [AllocOp.alloc 16]).getD ⟨initState, [], []⟩

/-- The state reached by two allocations (a bucketed one and a large one). -/
def t7 : TraceState :=
  (exec [AllocOp.alloc 16, AllocOp.alloc 4096]).getD ⟨initState, [], []⟩

/-- The state after a large allocation and its free. -/
def t6 : TraceState :=
  (exec [AllocOp.alloc 4096, AllocOp.free 4120]).getD ⟨initState, [], []⟩

/-! ### Lemmas about the bitmap primitives -/

lemma bool_not_eq_true {b : Bool} (h : (!b) = true) : b = false := by
  cases b <;> simp_all

lemma bool_not_eq_false {b : Bool} (h : (!b) = false) : b = true := by
  cases b <;> simp_all

lemma FULL_ULL_eq : FULL_ULL = 2 ^ 64 - 1 := by decide

lemma testBit_FULL_ULL {i : Nat} (hi : i < 64) : FULL_ULL.testBit i = true := by
  rw [FULL_ULL_eq, Nat.testBit_two_pow_sub_one]
  simpa using hi

lemma testBit_FULL_ULL_ge {i : Nat} (hi : 64 ≤ i) : FULL_ULL.testBit i = false := by
  apply Nat.testBit_lt_two_pow
  calc FULL_ULL < 2 ^ 64 := by decide
    _ ≤ 2 ^ i := Nat.pow_le_pow_right (by decide) hi

lemma testBit_complement64 (x : Nat) {i : Nat} (hi : i < 64) :
    (complement64 x).testBit i = ! x.testBit i := by
  unfold complement64
  rw [Nat.testBit_xor, testBit_FULL_ULL hi]
  cases x.testBit i <;> rfl

lemma lsbBelow_none {x : Nat} : ∀ {n : Nat}, lsbBelow x n = none →
    ∀ j, j < n → x.testBit j = false := by
  intro n
  induction n with
  | zero => intro _ j hj; omega
  | succ n ih =>
    intro h j hj
    unfold lsbBelow at h
    cases hrec : lsbBelow x n with
    | some i => rw [hrec] at h; exact absurd h (by simp)
    | none =>
      rw [hrec] at h
      by_cases hb : x.testBit n
      · rw [if_pos hb] at h; exact absurd h (by simp)
      · rcases Nat.lt_succ_iff_lt_or_eq.mp hj with h' | rfl
        · exact ih hrec j h'
        · simpa using hb

lemma lsbBelow_some {x : Nat} : ∀ {n i : Nat}, lsbBelow x n = some i →
    i < n ∧ x.testBit i = true ∧ ∀ j, j < i → x.testBit j = false := by
  intro n
  induction n with
  | zero => intro i h; exact absurd h (by simp [lsbBelow])
  | succ n ih =>
    intro i h
    unfold lsbBelow at h
    cases hrec : lsbBelow x n with
    | some k =>
      rw [hrec] at h
      obtain rfl : k = i := by simpa using h
      obtain ⟨h1, h2, h3⟩ := ih hrec
      exact ⟨Nat.lt_succ_of_lt h1, h2, h3⟩
    | none =>
      rw [hrec] at h
      by_cases hb : x.testBit n
      · rw [if_pos hb] at h
        obtain rfl : n = i := by simpa using h
        exact ⟨Nat.lt_succ_self _, hb, fun j hj => lsbBelow_none hrec j hj⟩
      · rw [if_neg hb] at h; exact absurd h (by simp)

lemma ffsll_zero {x : Nat} (h : ffsll x = 0) : ∀ j, j < 64 → x.testBit j = false := by
  unfold ffsll at h
  cases hrec : lsbBelow x 64 with
  | some i => rw [hrec] at h; exact absurd h (Nat.succ_ne_zero i)
  | none => exact fun j hj => lsbBelow_none hrec j hj

lemma ffsll_succ {x k : Nat} (h : ffsll x = k + 1) :
    k < 64 ∧ x.testBit k = true ∧ ∀ j, j < k → x.testBit j = false := by
  unfold ffsll at h
  cases hrec : lsbBelow x 64 with
  | some i =>
    rw [hrec] at h
    obtain rfl : i = k := by simpa using h
    exact lsbBelow_some hrec
  | none => rw [hrec] at h; exact absurd h (by simp)

/-- The word of `complement64 w` having its least set bit at `k` means the
word `w` has its least clear bit at `k`. -/
lemma ffsll_compl_succ {w k : Nat} (h : ffsll (complement64 w) = k + 1) :
    k < 64 ∧ w.testBit k = false ∧ ∀ j, j < k → w.testBit j = true := by
  obtain ⟨hk, hbit, hlow⟩ := ffsll_succ h
  rw [testBit_complement64 w hk] at hbit
  refine ⟨hk, bool_not_eq_true hbit, fun j hj => ?_⟩
  have := hlow j hj
  rw [testBit_complement64 w (by omega)] at this
  exact bool_not_eq_false this

lemma ffsll_compl_zero {w : Nat} (h : ffsll (complement64 w) = 0) :
    ∀ j, j < 64 → w.testBit j = true := by
  intro j hj
  have := ffsll_zero h j hj
  rw [testBit_complement64 w hj] at this
  exact bool_not_eq_false this

/-- Characterization of `NFFS` returning a positive value: `NFFS a = k + 1`
means `k` is the least clear bit of the 256-bit map under the word-by-word
scan order (word `s[3]` first). -/
lemma NFFS_succ {a : bitstring} {k : Nat} (h : NFFS a = k + 1) :
    k < 256 ∧ bitAt a k = false ∧ ∀ j, j < k → bitAt a j = true := by
  simp only [NFFS] at h
  split_ifs at h with h3 h2 h1 h0
  · obtain ⟨hk, hbit, hlow⟩ := ffsll_compl_succ h
    refine ⟨by omega, ?_, fun j hj => ?_⟩
    · unfold bitAt; rw [if_pos (by omega : k < 64)]; exact hbit
    · unfold bitAt; rw [if_pos (by omega : j < 64)]; exact hlow j hj
  · have e2 : ffsll (complement64 a.s2) = (k - 64) + 1 := by
      rcases Nat.exists_eq_succ_of_ne_zero h2 with ⟨m, hm⟩
      omega
    have hk64 : 64 ≤ k := by
      rcases Nat.exists_eq_succ_of_ne_zero h2 with ⟨m, hm⟩
      omega
    obtain ⟨hk, hbit, hlow⟩ := ffsll_compl_succ e2
    have hall3 := ffsll_compl_zero (by omega : ffsll (complement64 a.s3) = 0)
    refine ⟨by omega, ?_, fun j hj => ?_⟩
    · unfold bitAt
      rw [if_neg (by omega : ¬ k < 64), if_pos (by omega : k < 128)]
      exact hbit
    · unfold bitAt
      by_cases hj64 : j < 64
      · rw [if_pos hj64]; exact hall3 j hj64
      · rw [if_neg hj64, if_pos (by omega : j < 128)]
        exact hlow (j - 64) (by omega)
  · have e1 : ffsll (complement64 a.s1) = (k - 128) + 1 := by
      rcases Nat.exists_eq_succ_of_ne_zero h1 with ⟨m, hm⟩
      omega
    have hk128 : 128 ≤ k := by
      rcases Nat.exists_eq_succ_of_ne_zero h1 with ⟨m, hm⟩
      omega
    obtain ⟨hk, hbit, hlow⟩ := ffsll_compl_succ e1
    have hall3 := ffsll_compl_zero (by omega : ffsll (complement64 a.s3) = 0)
    have hall2 := ffsll_compl_zero (by omega : ffsll (complement64 a.s2) = 0)
    refine ⟨by omega, ?_, fun j hj => ?_⟩
    · unfold bitAt
      rw [if_neg (by omega : ¬ k < 64), if_neg (by omega : ¬ k < 128),
        if_pos (by omega : k < 192)]
      exact hbit
    · unfold bitAt
      by_cases hj64 : j < 64
      · rw [if_pos hj64]; exact hall3 j hj64
      · by_cases hj128 : j < 128
        · rw [if_neg hj64, if_pos hj128]; exact hall2 (j - 64) (by omega)
        · rw [if_neg hj64, if_neg hj128, if_pos (by omega : j < 192)]
          exact hlow (j - 128) (by omega)
  · have e0 : ffsll (complement64 a.s0) = (k - 192) + 1 := by
      rcases Nat.exists_eq_succ_of_ne_zero h0 with ⟨m, hm⟩
      omega
    have hk192 : 192 ≤ k := by
      rcases Nat.exists_eq_succ_of_ne_zero h0 with ⟨m, hm⟩
      omega
    obtain ⟨hk, hbit, hlow⟩ := ffsll_compl_succ e0
    have hall3 := ffsll_compl_zero (by omega : ffsll (complement64 a.s3) = 0)
    have hall2 := ffsll_compl_zero (by omega : ffsll (complement64 a.s2) = 0)
    have hall1 := ffsll_compl_zero (by omega : ffsll (complement64 a.s1) = 0)
    refine ⟨by omega, ?_, fun j hj => ?_⟩
    · unfold bitAt
      rw [if_neg (by omega : ¬ k < 64), if_neg (by omega : ¬ k < 128),
        if_neg (by omega : ¬ k < 192)]
      exact hbit
    · unfold bitAt
      by_cases hj64 : j < 64
      · rw [if_pos hj64]; exact hall3 j hj64
      · by_cases hj128 : j < 128
        · rw [if_neg hj64, if_pos hj128]; exact hall2 (j - 64) (by omega)
        · by_cases hj192 : j < 192
          · rw [if_neg hj64, if_neg hj128, if_pos hj192]
            exact hall1 (j - 128) (by omega)
          · rw [if_neg hj64, if_neg hj128, if_neg hj192]
            exact hlow (j - 192) (by omega)

/-- `NFFS a = 0` means every bit of the 256-bit map is set. -/
lemma NFFS_zero {a : bitstring} (h : NFFS a = 0) : ∀ i, i < 256 → bitAt a i = true := by
  simp only [NFFS] at h
  split_ifs at h with h3 h2 h1 h0
  · exact absurd h h3
  · push_neg at h3 h2 h1 h0
    have hall3 := ffsll_compl_zero h3
    have hall2 := ffsll_compl_zero h2
    have hall1 := ffsll_compl_zero h1
    have hall0 := ffsll_compl_zero h0
    intro i hi
    unfold bitAt
    by_cases c1 : i < 64
    · rw [if_pos c1]; exact hall3 i c1
    · by_cases c2 : i < 128
      · rw [if_neg c1, if_pos c2]; exact hall2 (i - 64) (by omega)
      · by_cases c3 : i < 192
        · rw [if_neg c1, if_neg c2, if_pos c3]; exact hall1 (i - 128) (by omega)
        · rw [if_neg c1, if_neg c2, if_neg c3]; exact hall0 (i - 192) (by omega)

/-- In every hard-coded bucket pattern the clear bits are exactly the
indices below the slot count; all higher (sentinel) bits are set. -/
lemma pattern_bits : ∀ b, b < 8 → ∀ i, i < 256 →
    (bitAt (bucketPattern b) i = false ↔ i < slotCount b) := by decide

lemma pattern_valid : ∀ b, b < 8 → validB (bucketPattern b) := by decide

lemma pattern_ne_FILLED : ∀ b, b < 8 → bucketPattern b ≠ FILLED_STRING := by decide

/-- The capacity constraint of the class table: header plus all slots fit
in the chunk's pages. -/
lemma bucket_capacity : ∀ b, b < 8 →
    SIZEOF_BUCKET_HEAD + slotCount b * bucketSize b ≤ bucketPages b * PAGE_SIZE := by decide

lemma zeroCount_pattern : ∀ b, b < 8 → zeroCount (bucketPattern b) = slotCount b := by decide

lemma bucketSize_pos : ∀ b, b < 8 → 0 < bucketSize b := by decide

lemma bitAt_FILLED {i : Nat} (hi : i < 256) : bitAt FILLED_STRING i = true := by
  simp only [bitAt, FILLED_STRING]
  split_ifs <;> exact testBit_FULL_ULL (by omega)

lemma eq_FILLED {a : bitstring} (hv : validB a) (h : ∀ i, i < 256 → bitAt a i = true) :
    a = FILLED_STRING := by
  obtain ⟨hv0, hv1, hv2, hv3⟩ := hv
  have w : ∀ x : Nat, x < 2 ^ 64 → (∀ j, j < 64 → x.testBit j = true) → x = FULL_ULL := by
    intro x hx hbits
    apply Nat.eq_of_testBit_eq
    intro j
    by_cases hj : j < 64
    · rw [hbits j hj, testBit_FULL_ULL hj]
    · rw [Nat.testBit_lt_two_pow
        (lt_of_lt_of_le hx (Nat.pow_le_pow_right (by decide) (by omega))),
        testBit_FULL_ULL_ge (by omega)]
  have e3 : a.s3 = FULL_ULL := by
    refine w _ hv3 (fun j hj => ?_)
    have := h j (by omega)
    unfold bitAt at this
    rwa [if_pos hj] at this
  have e2 : a.s2 = FULL_ULL := by
    refine w _ hv2 (fun j hj => ?_)
    have := h (j + 64) (by omega)
    unfold bitAt at this
    rw [if_neg (by omega : ¬ j + 64 < 64), if_pos (by omega : j + 64 < 128)] at this
    simpa using this
  have e1 : a.s1 = FULL_ULL := by
    refine w _ hv1 (fun j hj => ?_)
    have := h (j + 128) (by omega)
    unfold bitAt at this
    rw [if_neg (by omega : ¬ j + 128 < 64), if_neg (by omega : ¬ j + 128 < 128),
      if_pos (by omega : j + 128 < 192)] at this
    simpa using this
  have e0 : a.s0 = FULL_ULL := by
    refine w _ hv0 (fun j hj => ?_)
    have := h (j + 192) (by omega)
    unfold bitAt at this
    rw [if_neg (by omega : ¬ j + 192 < 64), if_neg (by omega : ¬ j + 192 < 128),
      if_neg (by omega : ¬ j + 192 < 192)] at this
    simpa using this
  cases a
  simp_all [FILLED_STRING]

lemma EQUAL_iff {a b : bitstring} : EQUAL a b = true ↔ a = b := by
  cases a; cases b
  simp [EQUAL, Bool.and_eq_true, beq_iff_eq, bitstring.mk.injEq, and_assoc]

lemma EQUAL_false_iff {a b : bitstring} : EQUAL a b = false ↔ a ≠ b := by
  rw [← Bool.not_eq_true, not_iff_not]
  exact EQUAL_iff

/-- `get_bucket` either rejects (`-1`) or returns a class index below 8
whose slot size strictly exceeds the request (the C comparison is
`bytes < bucket_size`). -/
lemma get_bucket_cases (s : Nat) :
    get_bucket s = -1 ∨ ∃ b : Nat, get_bucket s = Int.ofNat b ∧ b < 8 ∧ s < bucketSize b := by
  simp only [get_bucket, SUPPORTED_BUCKETS_SIZES, get_bucketAux]
  split_ifs with c0 c1 c2 c3 c4 c5 c6 c7
  · exact Or.inr ⟨0, rfl, by decide, c0⟩
  · exact Or.inr ⟨1, rfl, by decide, c1⟩
  · exact Or.inr ⟨2, rfl, by decide, c2⟩
  · exact Or.inr ⟨3, rfl, by decide, c3⟩
  · exact Or.inr ⟨4, rfl, by decide, c4⟩
  · exact Or.inr ⟨5, rfl, by decide, c5⟩
  · exact Or.inr ⟨6, rfl, by decide, c6⟩
  · exact Or.inr ⟨7, rfl, by decide, c7⟩
  · exact Or.inl rfl

lemma findIdxFrom_some_elem {p : α → Bool} :
    ∀ {l : List α} {i : Nat}, findIdxFrom p l = some i →
      ∃ x, l.get? i = some x ∧ p x = true := by
  intro l
  induction l with
  | nil => intro i h; exact absurd h (by simp [findIdxFrom])
  | cons a l ih =>
    intro i h
    unfold findIdxFrom at h
    by_cases hp : p a
    · rw [if_pos hp] at h
      obtain rfl : 0 = i := by simpa using h
      exact ⟨a, rfl, hp⟩
    · rw [if_neg hp] at h
      cases hrec : findIdxFrom p l with
      | none => rw [hrec] at h; exact absurd h (by simp)
      | some k =>
        rw [hrec] at h
        obtain rfl : k + 1 = i := by simpa using h
        obtain ⟨x, hx, hpx⟩ := ih hrec
        exact ⟨x, by simpa using hx, hpx⟩

lemma findIdxFrom_none_all {p : α → Bool} :
    ∀ {l : List α}, findIdxFrom p l = none → ∀ x ∈ l, p x = false := by
  intro l
  induction l with
  | nil => intro _ x hx; cases hx
  | cons a l ih =>
    intro h x hx
    unfold findIdxFrom at h
    by_cases hp : p a
    · rw [if_pos hp] at h; exact absurd h (by simp)
    · rw [if_neg hp] at h
      cases hrec : findIdxFrom p l with
      | some k => rw [hrec] at h; exact absurd h (by simp)
      | none =>
        rcases List.mem_cons.mp hx with rfl | hmem
        · simpa using hp
        · exact ih hrec x hmem

lemma findIdxFrom_isSome_of_elem {p : α → Bool} {l : List α} {x : α}
    (hx : x ∈ l) (hp : p x = true) : (findIdxFrom p l).isSome := by
  cases h : findIdxFrom p l with
  | some i => rfl
  | none => rw [findIdxFrom_none_all h x hx] at hp; cases hp

/-- What `xmalloc` learns from scanning a usable chunk's bitmap: `NFFS`
returns one plus a clear bit index that lies inside the slot range of the
class (thanks to the sentinel bits of the initial pattern). -/
lemma alloc_map_facts {b : Nat} (hb : b < 8) {m : bitstring} (hv : validB m)
    (hsup : ∀ i, i < 256 → bitAt (bucketPattern b) i = true → bitAt m i = true)
    (hne : m ≠ FILLED_STRING) :
    ∃ k, NFFS m = k + 1 ∧ k < slotCount b ∧ bitAt m k = false ∧
      ∀ j, j < k → bitAt m j = true := by
  cases hn : NFFS m with
  | zero => exact absurd (eq_FILLED hv (NFFS_zero hn)) hne
  | succ k =>
    obtain ⟨hk, hbit, hlow⟩ := NFFS_succ hn
    have hpat : bitAt (bucketPattern b) k = false := by
      cases hcase : bitAt (bucketPattern b) k with
      | false => rfl
      | true => rw [hsup k hk hcase] at hbit; cases hbit
    exact ⟨k, rfl, (pattern_bits b hb k hk).mp hpat, hbit, hlow⟩

lemma shiftLeft_one_lt {n : Nat} (hn : n < 64) : (1 <<< n : Nat) < 2 ^ 64 := by
  rw [Nat.shiftLeft_eq, one_mul]
  exact Nat.pow_lt_pow_right (by decide) hn

lemma validB_FLIP {a : bitstring} {i : Nat} (hv : validB a) (hi : i < 256) :
    validB (FLIP a i) := by
  obtain ⟨h0, h1, h2, h3⟩ := hv
  unfold FLIP
  split_ifs with c1 c2 c3
  · exact ⟨h0, h1, h2, Nat.xor_lt_two_pow h3 (shiftLeft_one_lt (by omega))⟩
  · exact ⟨h0, h1, Nat.xor_lt_two_pow h2 (shiftLeft_one_lt (by omega)), h3⟩
  · exact ⟨h0, Nat.xor_lt_two_pow h1 (shiftLeft_one_lt (by omega)), h2, h3⟩
  · exact ⟨Nat.xor_lt_two_pow h0 (shiftLeft_one_lt (by omega)), h1, h2, h3⟩

lemma testBit_xor_pow {x b1 b2 : Nat} (hb1 : b1 < 64) :
    (x ^^^ (1 <<< b1)).testBit b2 = if b2 = b1 then ! x.testBit b2 else x.testBit b2 := by
  rw [Nat.shiftLeft_eq, one_mul, Nat.testBit_xor, Nat.testBit_two_pow]
  by_cases h : b2 = b1
  · subst h; simp
  · have h' : ¬ (b1 = b2) := fun hh => h hh.symm
    simp [h, h']

/-- Flipping bit `i` changes exactly bit `i` of the 256-bit map. -/
lemma bitAt_FLIP {a : bitstring} {i j : Nat} (hi : i < 256) (hj : j < 256) :
    bitAt (FLIP a i) j = if j = i then ! bitAt a j else bitAt a j := by
  unfold FLIP bitAt
  rcases Nat.lt_or_ge i 64 with hw3 | hw3'
  · rw [if_pos (by omega : i ≤ 63)]
    by_cases hj64 : j < 64
    · simp only [if_pos hj64]
      exact testBit_xor_pow hw3
    · simp only [if_neg hj64]
      rw [if_neg (by omega : ¬ j = i)]
  · rcases Nat.lt_or_ge i 128 with hw2 | hw2'
    · rw [if_neg (by omega : ¬ i ≤ 63), if_pos (by omega : i ≤ 127)]
      by_cases hj64 : j < 64
      · simp only [if_pos hj64]
        rw [if_neg (by omega : ¬ j = i)]
      · by_cases hj128 : j < 128
        · simp only [if_neg hj64, if_pos hj128]
          rw [testBit_xor_pow (by omega : i - 64 < 64)]
          by_cases he : j = i
          · rw [if_pos (by omega : j - 64 = i - 64), if_pos he]
          · rw [if_neg (by omega : ¬ j - 64 = i - 64), if_neg he]
        · simp only [if_neg hj64, if_neg hj128]
          rw [if_neg (by omega : ¬ j = i)]
    · rcases Nat.lt_or_ge i 192 with hw1 | hw1'
      · rw [if_neg (by omega : ¬ i ≤ 63), if_neg (by omega : ¬ i ≤ 127),
          if_pos (by omega : i ≤ 191)]
        by_cases hj64 : j < 64
        · simp only [if_pos hj64]
          rw [if_neg (by omega : ¬ j = i)]
        · by_cases hj128 : j < 128
          · simp only [if_neg hj64, if_pos hj128]
            rw [if_neg (by omega : ¬ j = i)]
          · by_cases hj192 : j < 192
            · simp only [if_neg hj64, if_neg hj128, if_pos hj192]
              rw [testBit_xor_pow (by omega : i - 128 < 64)]
              by_cases he : j = i
              · rw [if_pos (by omega : j - 128 = i - 128), if_pos he]
              · rw [if_neg (by omega : ¬ j - 128 = i - 128), if_neg he]
            · simp only [if_neg hj64, if_neg hj128, if_neg hj192]
              rw [if_neg (by omega : ¬ j = i)]
      · rw [if_neg (by omega : ¬ i ≤ 63), if_neg (by omega : ¬ i ≤ 127),
          if_neg (by omega : ¬ i ≤ 191)]
        by_cases hj64 : j < 64
        · simp only [if_pos hj64]
          rw [if_neg (by omega : ¬ j = i)]
        · by_cases hj128 : j < 128
          · simp only [if_neg hj64, if_pos hj128]
            rw [if_neg (by omega : ¬ j = i)]
          · by_cases hj192 : j < 192
            · simp only [if_neg hj64, if_neg hj128, if_pos hj192]
              rw [if_neg (by omega : ¬ j = i)]
            · simp only [if_neg hj64, if_neg hj128, if_neg hj192]
              rw [testBit_xor_pow (by omega : i - 192 < 64)]
              by_cases he : j = i
              · rw [if_pos (by omega : j - 192 = i - 192), if_pos he]
              · rw [if_neg (by omega : ¬ j - 192 = i - 192), if_neg he]

/-! ### List surgery helpers -/

lemma RDisj_symm {r1 r2 : Nat × Nat} (h : RDisj r1 r2) : RDisj r2 r1 := Or.symm h

lemma UDisj_symm {e1 e2 : Nat × Nat} (h : UDisj e1 e2) : UDisj e2 e1 := Or.symm h

lemma mem_joinL_of_getD {l : List (List α)} {x : α} :
    ∀ {b : Nat}, b < l.length → x ∈ l.getD b [] → x ∈ joinL l := by
  induction l with
  | nil => intro b hb; simp at hb
  | cons hd tl ih =>
    intro b hb hx
    cases b with
    | zero => exact List.mem_append_left _ hx
    | succ n =>
      exact List.mem_append_right _ (ih (by simpa using hb) hx)

lemma joinL_mem_exists {l : List (List α)} {x : α} (h : x ∈ joinL l) :
    ∃ b, b < l.length ∧ x ∈ l.getD b [] := by
  induction l with
  | nil => cases h
  | cons hd tl ih =>
    rcases List.mem_append.mp h with h1 | h2
    · exact ⟨0, by simp, h1⟩
    · obtain ⟨b, hb, hx⟩ := ih h2
      exact ⟨b + 1, by simpa using hb, hx⟩

lemma getD_set_self {l : List (List α)} (x : List α) :
    ∀ {b : Nat}, b < l.length → (l.set b x).getD b [] = x := by
  induction l with
  | nil => intro b hb; simp at hb
  | cons hd tl ih =>
    intro b hb
    cases b with
    | zero => rfl
    | succ n => exact ih (by simpa using hb)

lemma getD_set_ne {l : List (List α)} (x : List α) :
    ∀ {b b' : Nat}, b ≠ b' → (l.set b x).getD b' [] = l.getD b' [] := by
  induction l with
  | nil => intro b b' _; rfl
  | cons hd tl ih =>
    intro b b' h
    cases b with
    | zero =>
      cases b' with
      | zero => exact absurd rfl h
      | succ m => rfl
    | succ n =>
      cases b' with
      | zero => rfl
      | succ m => exact ih (by omega)

lemma set_getD_self {l : List (List α)} :
    ∀ {b : Nat}, b < l.length → l.set b (l.getD b []) = l := by
  induction l with
  | nil => intro b hb; simp at hb
  | cons hd tl ih =>
    intro b hb
    cases b with
    | zero => rfl
    | succ n => simpa using ih (by simpa using hb)

lemma joinL_set_perm (x : List α) {l : List (List α)} :
    ∀ {b : Nat}, b < l.length →
      List.Perm (joinL (l.set b x)) (x ++ joinL (l.set b [])) := by
  induction l with
  | nil => intro b hb; simp at hb
  | cons hd tl ih =>
    intro b hb
    cases b with
    | zero =>
      show List.Perm (joinL (x :: tl)) (x ++ joinL ([] :: tl))
      simp only [joinL]
      exact List.Perm.refl _
    | succ n =>
      show List.Perm (joinL (hd :: tl.set n x)) (x ++ joinL (hd :: tl.set n []))
      simp only [joinL]
      have step1 : List.Perm (hd ++ joinL (tl.set n x)) (hd ++ (x ++ joinL (tl.set n []))) :=
        List.Perm.append_left hd (ih (by simpa using hb))
      have step2 : List.Perm ((hd ++ x) ++ joinL (tl.set n [])) ((x ++ hd) ++ joinL (tl.set n [])) :=
        List.Perm.append_right _ List.perm_append_comm
      rw [List.append_assoc] at step2
      rw [List.append_assoc] at step2
      exact step1.trans step2

lemma joinL_getD_perm {l : List (List α)} {b : Nat} (hb : b < l.length) :
    List.Perm (joinL l) (l.getD b [] ++ joinL (l.set b [])) := by
  conv_lhs => rw [← set_getD_self hb]
  exact joinL_set_perm _ hb

lemma set_get?_self {l : List α} : ∀ {i : Nat} {a : α}, l.get? i = some a → l.set i a = l := by
  induction l with
  | nil => intro i a h; cases h
  | cons hd tl ih =>
    intro i a h
    cases i with
    | zero =>
      obtain rfl : hd = a := by simpa using h
      rfl
    | succ n => simpa using ih (by simpa using h)

lemma set_perm_cons_eraseIdx {l : List α} :
    ∀ {i : Nat} {a : α}, l.get? i = some a → ∀ x, List.Perm (l.set i x) (x :: l.eraseIdx i) := by
  induction l with
  | nil => intro i a h; cases h
  | cons hd tl ih =>
    intro i a h x
    cases i with
    | zero => simp
    | succ n =>
      show List.Perm (hd :: tl.set n x) (x :: hd :: tl.eraseIdx n)
      exact (List.Perm.cons hd (ih (by simpa using h) x)).trans (List.Perm.swap _ _ _)

lemma perm_cons_eraseIdx {l : List α} {i : Nat} {a : α} (h : l.get? i = some a) :
    List.Perm l (a :: l.eraseIdx i) := by
  conv_lhs => rw [← set_get?_self h]
  exact set_perm_cons_eraseIdx h a

lemma mem_set_of_mem_ne {l : List α} {i : Nat} {a x y : α}
    (h : l.get? i = some a) (hx : x ∈ l) (hne : x ≠ a) : x ∈ l.set i y := by
  have h1 := (perm_cons_eraseIdx h).mem_iff.mp hx
  rcases List.mem_cons.mp h1 with rfl | h2
  · exact absurd rfl hne
  · exact (set_perm_cons_eraseIdx h y).symm.mem_iff.mp (List.mem_cons_of_mem _ h2)

lemma mem_eraseIdx_of_mem_ne {l : List α} {i : Nat} {a x : α}
    (h : l.get? i = some a) (hx : x ∈ l) (hne : x ≠ a) : x ∈ l.eraseIdx i := by
  have h1 := (perm_cons_eraseIdx h).mem_iff.mp hx
  rcases List.mem_cons.mp h1 with rfl | h2
  · exact absurd rfl hne
  · exact h2

lemma mem_set_self {l : List α} {i : Nat} {a : α} (h : l.get? i = some a) (x : α) :
    x ∈ l.set i x :=
  (set_perm_cons_eraseIdx h x).symm.mem_iff.mp (List.mem_cons_self _ _)

lemma nodup_of_pairwise_irrefl {R : α → α → Prop} :
    ∀ {l : List α}, l.Pairwise R → (∀ x ∈ l, ¬ R x x) → l.Nodup := by
  intro l
  induction l with
  | nil => intro _ _; exact List.nodup_nil
  | cons hd tl ih =>
    intro hp hirr
    rcases List.pairwise_cons.mp hp with ⟨hhd, htl⟩
    refine List.nodup_cons.mpr
      ⟨fun hmem => ?_, ih htl (fun x hx => hirr x (List.mem_cons_of_mem _ hx))⟩
    exact hirr hd (List.mem_cons_self _ _) (hhd hd hmem)

/-! ### Arithmetic and lookup helpers -/

lemma assocLookup_cons_eq {a v : Nat} {l : List (Nat × Nat)} :
    assocLookup a ((a, v) :: l) = some v := by
  simp [assocLookup]

lemma assocLookup_cons_ne {k a v : Nat} (h : k ≠ a) {l : List (Nat × Nat)} :
    assocLookup a ((k, v) :: l) = assocLookup a l := by
  simp [assocLookup, h]

lemma slot_mul_succ_le {i j ss : Nat} (h : i < j) : i * ss + ss ≤ j * ss := by
  have h1 : (i + 1) * ss ≤ j * ss := Nat.mul_le_mul_right ss h
  rw [Nat.succ_mul] at h1
  exact h1

lemma slot_end_le {b i : Nat} (hb : b < 8) (hi : i < slotCount b) :
    SIZEOF_BUCKET_HEAD + i * bucketSize b + bucketSize b ≤ bucketPages b * PAGE_SIZE := by
  have h1 := bucket_capacity b hb
  have h2 : i * bucketSize b + bucketSize b ≤ slotCount b * bucketSize b := slot_mul_succ_le hi
  omega

/-! ### Consequences of the invariant -/

lemma ranges_wf_of_inv {t : TraceState} (ht : TraceInv t) :
    ∀ r ∈ chunkRanges t.s, RangeWF t.s.next_addr r := by
  intro r hr
  unfold chunkRanges at hr
  rcases List.mem_append.mp hr with h12 | h3
  · rcases List.mem_append.mp h12 with h1 | h2
    · obtain ⟨c, hc, rfl⟩ := List.mem_map.mp h1
      obtain ⟨b, hb, hcb⟩ := joinL_mem_exists hc
      have hb8 : b < 8 := by rw [ht.lists_len] at hb; exact hb
      exact (ht.chunks_wf b hb8 c hcb).2.2.2.2.1
    · obtain ⟨c, hc, rfl⟩ := List.mem_map.mp h2
      exact ht.leaked_wf c hc
  · obtain ⟨g, hg, rfl⟩ := List.mem_map.mp h3
    exact (ht.bigs_wf g hg).2.2.1

lemma ranges_nodup {t : TraceState} (ht : TraceInv t) : (chunkRanges t.s).Nodup := by
  refine nodup_of_pairwise_irrefl ht.ranges_disj (fun r hr hRR => ?_)
  have hw := (ranges_wf_of_inv ht r hr).2.2
  unfold RDisj at hRR
  omega

lemma range_base_inj {t : TraceState} (ht : TraceInv t) {r1 r2 : Nat × Nat}
    (h1 : r1 ∈ chunkRanges t.s) (h2 : r2 ∈ chunkRanges t.s) (hb : r1.1 = r2.1) : r1 = r2 := by
  by_cases he : r1 = r2
  · exact he
  · exfalso
    have hd := (List.Pairwise.forall (fun {x y} h => RDisj_symm h) ht.ranges_disj) h1 h2 he
    have w1 := (ranges_wf_of_inv ht r1 h1).2.2
    have w2 := (ranges_wf_of_inv ht r2 h2).2.2
    unfold RDisj at hd
    omega

lemma bucket_range_mem {t : TraceState} {c : BucketChunk} (hc : c ∈ joinL t.s.lists) :
    bucketRange c ∈ chunkRanges t.s :=
  List.mem_append_left _ (List.mem_append_left _ (List.mem_map_of_mem _ hc))

lemma leaked_range_mem {t : TraceState} {c : BucketChunk} (hc : c ∈ t.s.leaked) :
    bucketRange c ∈ chunkRanges t.s :=
  List.mem_append_left _ (List.mem_append_right _ (List.mem_map_of_mem _ hc))

lemma big_range_mem {t : TraceState} {g : BigChunk} (hg : g ∈ t.s.bigs) :
    bigRange g ∈ chunkRanges t.s :=
  List.mem_append_right _ (List.mem_map_of_mem _ hg)

lemma bucket_chunk_inj {t : TraceState} (ht : TraceInv t) {c1 c2 : BucketChunk}
    (h1 : c1 ∈ joinL t.s.lists) (h2 : c2 ∈ joinL t.s.lists) (hb : c1.base = c2.base) :
    c1 = c2 := by
  have hnd : ((joinL t.s.lists).map bucketRange ++
      (t.s.leaked.map bucketRange ++ t.s.bigs.map bigRange)).Nodup := by
    have h := ranges_nodup ht
    unfold chunkRanges at h
    simpa [List.append_assoc] using h
  have hnd1 : ((joinL t.s.lists).map bucketRange).Nodup := (List.nodup_append.mp hnd).1
  have hrr : bucketRange c1 = bucketRange c2 :=
    range_base_inj ht (bucket_range_mem h1) (bucket_range_mem h2) hb
  exact List.inj_on_of_nodup_map hnd1 h1 h2 hrr

lemma joinL_nodup {t : TraceState} (ht : TraceInv t) : (joinL t.s.lists).Nodup := by
  have hnd : ((joinL t.s.lists).map bucketRange ++
      (t.s.leaked.map bucketRange ++ t.s.bigs.map bigRange)).Nodup := by
    have h := ranges_nodup ht
    unfold chunkRanges at h
    simpa [List.append_assoc] using h
  exact List.Nodup.of_map bucketRange (List.nodup_append.mp hnd).1

lemma chunk_class_unique {t : TraceState} (ht : TraceInv t) {b1 b2 : Nat} {c : BucketChunk}
    (hb1 : b1 < 8) (hb2 : b2 < 8) (m1 : c ∈ t.s.lists.getD b1 [])
    (m2 : c ∈ t.s.lists.getD b2 []) : b1 = b2 := by
  by_contra hne
  have hlen : t.s.lists.length = 8 := ht.lists_len
  have hperm := joinL_getD_perm (l := t.s.lists) (b := b1)
    (show b1 < t.s.lists.length by omega)
  have m2' : c ∈ joinL (t.s.lists.set b1 []) :=
    mem_joinL_of_getD (l := t.s.lists.set b1 []) (b := b2)
      (by rw [List.length_set]; omega)
      (by rw [getD_set_ne ([] : List BucketChunk) (fun h => hne h)]; exact m2)
  have hnd' := (joinL_nodup ht).perm hperm
  exact List.disjoint_of_nodup_append hnd' m1 m2'

lemma bucket_big_base_ne {t : TraceState} (ht : TraceInv t) {c : BucketChunk} {g : BigChunk}
    (hc : c ∈ joinL t.s.lists) (hg : g ∈ t.s.bigs) : c.base ≠ g.base := by
  intro he
  have hd := List.pairwise_append.mp ht.ranges_disj
  have hcross := hd.2.2 (bucketRange c) (List.mem_append_left _ (List.mem_map_of_mem _ hc))
    (bigRange g) (List.mem_map_of_mem _ hg)
  have w1 := (ranges_wf_of_inv ht _ (bucket_range_mem hc)).2.2
  have w2 := (ranges_wf_of_inv ht _ (big_range_mem hg)).2.2
  unfold RDisj bucketRange bigRange at hcross
  simp only at hcross
  unfold bucketRange at w1
  unfold bigRange at w2
  simp only at w1 w2
  omega

lemma big_inj {t : TraceState} (ht : TraceInv t) {g1 g2 : BigChunk}
    (h1 : g1 ∈ t.s.bigs) (h2 : g2 ∈ t.s.bigs) (hb : g1.base = g2.base) : g1 = g2 := by
  have hnd : ((t.s.leaked.map bucketRange ++ t.s.bigs.map bigRange)).Nodup := by
    have h := ranges_nodup ht
    unfold chunkRanges at h
    have h' : ((joinL t.s.lists).map bucketRange ++
        (t.s.leaked.map bucketRange ++ t.s.bigs.map bigRange)).Nodup := by
      simpa [List.append_assoc] using h
    exact (List.nodup_append.mp h').2.1
  have hnd2 : (t.s.bigs.map bigRange).Nodup := (List.nodup_append.mp hnd).2.1
  have hrr : bigRange g1 = bigRange g2 :=
    range_base_inj ht (big_range_mem h1) (big_range_mem h2) hb
  exact List.inj_on_of_nodup_map hnd2 h1 h2 hrr

lemma find_big_some {t : TraceState} (ht : TraceInv t) {g : BigChunk} (hg : g ∈ t.s.bigs) :
    t.s.bigs.find? (fun c => c.base == g.base) = some g := by
  cases hf : t.s.bigs.find? (fun c => c.base == g.base) with
  | none =>
    exfalso
    have hpg : (fun c : BigChunk => c.base == g.base) g = true := by simp
    have hs : (t.s.bigs.find? (fun c => c.base == g.base)).isSome :=
      List.find?_isSome.mpr ⟨g, hg, hpg⟩
    rw [hf] at hs
    cases hs
  | some g' =>
    have hp := List.find?_some hf
    have hm := List.mem_of_find?_eq_some hf
    rw [big_inj ht hm hg (by simpa using hp)]

lemma find_big_none {t : TraceState} (ht : TraceInv t) {c : BucketChunk}
    (hc : c ∈ joinL t.s.lists) :
    t.s.bigs.find? (fun g => g.base == c.base) = none := by
  cases hf : t.s.bigs.find? (fun g => g.base == c.base) with
  | none => rfl
  | some g' =>
    exfalso
    have hp := List.find?_some hf
    have hm := List.mem_of_find?_eq_some hf
    have hb : g'.base = c.base := by simpa using hp
    exact bucket_big_base_ne ht hc hm hb.symm

lemma findIdxFrom_none_of_all {p : α → Bool} {l : List α}
    (h : ∀ x ∈ l, p x = false) : findIdxFrom p l = none := by
  cases hf : findIdxFrom p l with
  | none => rfl
  | some i =>
    obtain ⟨x, hx, hpx⟩ := findIdxFrom_some_elem hf
    rw [h x (List.get?_mem hx)] at hpx
    cases hpx

lemma findChunkIn_spec {c : BucketChunk} :
    ∀ {l : List (List BucketChunk)} {b : Nat}, b < l.length → c ∈ l.getD b [] →
      (∀ b' c', b' < l.length → c' ∈ l.getD b' [] → c'.base = c.base → b' = b ∧ c' = c) →
      ∃ i, findChunkIn l c.base = some (b, i) ∧ (l.getD b []).get? i = some c := by
  intro l
  induction l with
  | nil => intro b hb; intro h; simp at hb
  | cons hd tl ih =>
    intro b hb hmem huniq
    cases b with
    | zero =>
      have hsome : (findIdxFrom (fun x => x.base == c.base) hd).isSome :=
        findIdxFrom_isSome_of_elem hmem (by simp)
      cases hf : findIdxFrom (fun x => x.base == c.base) hd with
      | none => rw [hf] at hsome; cases hsome
      | some i =>
        obtain ⟨x, hx, hpx⟩ := findIdxFrom_some_elem hf
        have hxc : x = c :=
          (huniq 0 x (by simp) (List.get?_mem hx) (by simpa using hpx)).2
        subst hxc
        exact ⟨i, by simp [findChunkIn, hf], hx⟩
    | succ m =>
      have hnone : findIdxFrom (fun x => x.base == c.base) hd = none := by
        apply findIdxFrom_none_of_all
        intro x hxmem
        cases hpc : x.base == c.base with
        | false => simpa using hpc
        | true =>
          exfalso
          have hbase : x.base = c.base := by simpa using hpc
          have := (huniq 0 x (by simp) hxmem hbase).1
          omega
      have hmem' : c ∈ tl.getD m [] := hmem
      have huniq' : ∀ b' c', b' < tl.length → c' ∈ tl.getD b' [] → c'.base = c.base →
          b' = m ∧ c' = c := by
        intro b' c' hb' hm' hbase
        have := huniq (b' + 1) c' (by simpa using Nat.succ_lt_succ hb') hm' hbase
        exact ⟨by omega, this.2⟩
      obtain ⟨i, hfi, hgi⟩ := ih (by simpa using hb) hmem' huniq'
      exact ⟨i, by simp [findChunkIn, hnone, hfi], hgi⟩

/-! ### Weakening of the well-formedness predicates -/

lemma RangeWF_mono {next next' : Nat} (h : next ≤ next') {r : Nat × Nat}
    (hr : RangeWF next r) : RangeWF next' r :=
  ⟨hr.1, le_trans hr.2.1 h, hr.2.2⟩

lemma BucketWF_mono {next next' : Nat} {mapped mapped' : List (Nat × Nat)} {b : Nat}
    {c : BucketChunk} (hn : next ≤ next') (hm : ∀ e ∈ mapped, e ∈ mapped')
    (h : BucketWF next mapped b c) : BucketWF next' mapped' b c :=
  ⟨h.1, h.2.1, h.2.2.1, h.2.2.2.1, RangeWF_mono hn h.2.2.2.2.1, hm _ h.2.2.2.2.2⟩

lemma BigWF_mono {next next' : Nat} {mapped mapped' : List (Nat × Nat)}
    {g : BigChunk} (hn : next ≤ next') (hm : ∀ e ∈ mapped, e ∈ mapped')
    (h : BigWF next mapped g) : BigWF next' mapped' g :=
  ⟨h.1, h.2.1, RangeWF_mono hn h.2.2.1, hm _ h.2.2.2.1, h.2.2.2.2⟩

lemma MunmapWF_mono {mapped mapped' : List (Nat × Nat)} {e : Nat × Nat}
    (hm : ∀ x ∈ mapped, x ∈ mapped') (h : MunmapWF mapped e) : MunmapWF mapped' e := by
  obtain ⟨h1, mlen, h2, h3⟩ := h
  exact ⟨h1, mlen, hm _ h2, h3⟩

/-! ### Address arithmetic -/

lemma pages_needed_ne_zero {bytes : Nat} (h : 0 < bytes) : pages_needed bytes ≠ 0 := by
  simp only [pages_needed, PAGE_SIZE]
  split_ifs with hh <;> omega

lemma pages_needed_ge (bytes : Nat) : bytes ≤ pages_needed bytes * PAGE_SIZE := by
  simp only [pages_needed, PAGE_SIZE]
  split_ifs with h <;> omega

lemma pages_needed_ge_page {bytes : Nat} (h0 : 0 < bytes) :
    PAGE_SIZE ≤ pages_needed bytes * PAGE_SIZE := by
  simp only [pages_needed, PAGE_SIZE]
  split_ifs with h <;> omega

lemma slot_addr_ne {base ss i j : Nat} (hss : 0 < ss) (hij : i ≠ j) :
    base + SIZEOF_BUCKET_HEAD + i * ss ≠ base + SIZEOF_BUCKET_HEAD + j * ss := by
  intro h
  have he : i * ss = j * ss := by omega
  exact hij (Nat.eq_of_mul_eq_mul_right hss he)

lemma slot_udisj {base ss i j n1 n2 : Nat} (hij : i ≠ j)
    (h1 : n1 + SIZEOF_BLOCK_HEAD ≤ ss) (h2 : n2 + SIZEOF_BLOCK_HEAD ≤ ss) :
    UDisj (base + SIZEOF_BUCKET_HEAD + i * ss + SIZEOF_BLOCK_HEAD, n1)
          (base + SIZEOF_BUCKET_HEAD + j * ss + SIZEOF_BLOCK_HEAD, n2) := by
  unfold UDisj SIZEOF_BLOCK_HEAD SIZEOF_BUCKET_HEAD at *
  rcases Nat.lt_or_ge i j with h | h
  · left
    have := @slot_mul_succ_le i j ss h
    simp only
    omega
  · right
    have hj : j < i := by omega
    have := @slot_mul_succ_le j i ss hj
    simp only
    omega

lemma addr_ne_of_ranges {t : TraceState} (ht : TraceInv t) {r1 r2 : Nat × Nat}
    (h1 : r1 ∈ chunkRanges t.s) (h2 : r2 ∈ chunkRanges t.s) (hne : r1 ≠ r2) {a1 a2 : Nat}
    (ha1l : r1.1 ≤ a1) (ha1r : a1 < r1.1 + r1.2) (ha2l : r2.1 ≤ a2)
    (ha2r : a2 < r2.1 + r2.2) : a1 ≠ a2 := by
  have hd := (List.Pairwise.forall (fun {x y} h => RDisj_symm h) ht.ranges_disj) h1 h2 hne
  unfold RDisj at hd
  omega

/-! ### Preservation of the invariant -/

lemma live_bucket_bounds {t : TraceState} (ht : TraceInv t) {b : Nat} {c : BucketChunk}
    {i : Nat} (hb : b < 8) (hc : c ∈ t.s.lists.getD b []) (hi : i < slotCount b) :
    c.chunk_size = bucketPages b * PAGE_SIZE ∧
    c.base + SIZEOF_BUCKET_HEAD + i * bucketSize b + bucketSize b ≤ c.base + c.chunk_size ∧
    c.base + c.chunk_size ≤ t.s.next_addr ∧ PAGE_SIZE ≤ c.base := by
  have hwf := ht.chunks_wf b hb c hc
  have hcs : c.chunk_size = bucketPages b * PAGE_SIZE := hwf.2.1
  have hr : RangeWF t.s.next_addr (bucketRange c) := hwf.2.2.2.2.1
  have hend := slot_end_le hb hi
  refine ⟨hcs, ?_, hr.2.1, hr.1⟩
  omega

lemma live_end_le {t : TraceState} (ht : TraceInv t) {e : Nat × Nat} (he : e ∈ t.live) :
    e.1 + e.2 ≤ t.s.next_addr ∧ PAGE_SIZE ≤ e.1 := by
  rcases ht.live_wf e he with ⟨b, c, i, hb, hc, hi, _hbit, hp, hsz, _hlk⟩ | ⟨g, hg, hp, hsz, _hlk⟩
  · obtain ⟨hcs, hslot, hnext, hbase⟩ := live_bucket_bounds ht hb hc hi
    constructor
    · rw [hp]; omega
    · rw [hp]; omega
  · have hwf := ht.bigs_wf g hg
    have h1 : g.chunk_size ≤ g.mapped_len := hwf.2.1
    have hr : RangeWF t.s.next_addr (bigRange g) := hwf.2.2.1
    have h2 : g.base + g.mapped_len ≤ t.s.next_addr := hr.2.1
    have h3 : PAGE_SIZE ≤ g.base := hr.1
    constructor
    · rw [hp]
      unfold SIZEOF_CHUNK_HEAD SIZEOF_BLOCK_HEAD at hsz ⊢
      omega
    · rw [hp]; omega

/-- The block-head (back-reference) address of a live entry lies strictly
inside its chunk's mapped region, and the pointer is its successor. -/
lemma live_key_lt_next {t : TraceState} (ht : TraceInv t) {e : Nat × Nat} (he : e ∈ t.live) :
    e.1 ≤ t.s.next_addr := by
  have h := live_end_le ht he
  omega

lemma inv_set_inited {t : TraceState} (ht : TraceInv t) :
    TraceInv ⟨{ t.s with inited := true }, t.live, t.log⟩ :=
  ⟨fun h => Bool.noConfusion h, ht.lists_len, ht.chunks_wf, ht.leaked_wf, ht.bigs_wf,
   ht.ranges_disj, ht.live_wf, ht.live_disj, ht.live_ptr_ne, ht.log_nz, ht.munmap_ok,
   ht.page_le_next⟩

lemma xbig_malloc_eq (size : Nat) (s : AllocState)
    (hpos : pages_needed ((size + SIZEOF_CHUNK_HEAD) % 2 ^ 64) ≠ 0) :
    xbig_malloc size s = some
      (s.next_addr + SIZEOF_CHUNK_HEAD + SIZEOF_BLOCK_HEAD,
       { s with
         bigs := ⟨s.next_addr, (size + SIZEOF_CHUNK_HEAD) % 2 ^ 64,
                  pages_needed ((size + SIZEOF_CHUNK_HEAD) % 2 ^ 64) * PAGE_SIZE⟩ :: s.bigs
         backrefs := (s.next_addr + SIZEOF_CHUNK_HEAD, s.next_addr) :: s.backrefs
         next_addr := s.next_addr
           + pages_needed ((size + SIZEOF_CHUNK_HEAD) % 2 ^ 64) * PAGE_SIZE
         mapped := (s.next_addr, pages_needed ((size + SIZEOF_CHUNK_HEAD) % 2 ^ 64) * PAGE_SIZE)
           :: s.mapped }) := by
  simp only [xbig_malloc, os_mmap]
  rw [if_neg hpos]

lemma big_alloc_inv {t : TraceState} (ht : TraceInv t) {n : Nat} {ps : Nat × AllocState}
    (hn : n + SIZEOF_BLOCK_HEAD + SIZEOF_CHUNK_HEAD < 2 ^ 64)
    (hps : xbig_malloc (n + SIZEOF_BLOCK_HEAD) t.s = some ps) :
    TraceInv ⟨ps.2, (ps.1, n) :: t.live, ps.1 :: t.log⟩ := by
  have hmod : (n + SIZEOF_BLOCK_HEAD + SIZEOF_CHUNK_HEAD) % 2 ^ 64 =
      n + SIZEOF_BLOCK_HEAD + SIZEOF_CHUNK_HEAD := Nat.mod_eq_of_lt hn
  have hpos : pages_needed ((n + SIZEOF_BLOCK_HEAD + SIZEOF_CHUNK_HEAD) % 2 ^ 64) ≠ 0 := by
    rw [hmod]
    apply pages_needed_ne_zero
    rw [show SIZEOF_BLOCK_HEAD = 8 from rfl, show SIZEOF_CHUNK_HEAD = 16 from rfl]
    omega
  rw [xbig_malloc_eq _ _ hpos, hmod] at hps
  obtain rfl := (Option.some.inj hps).symm
  dsimp only
  have hple : PAGE_SIZE ≤ t.s.next_addr := ht.page_le_next
  have hpage : PAGE_SIZE = 4096 := rfl
  have hbh : SIZEOF_BLOCK_HEAD = 8 := rfl
  have hch : SIZEOF_CHUNK_HEAD = 16 := rfl
  have hclen : n + SIZEOF_BLOCK_HEAD + SIZEOF_CHUNK_HEAD ≤
      pages_needed (n + SIZEOF_BLOCK_HEAD + SIZEOF_CHUNK_HEAD) * PAGE_SIZE :=
    pages_needed_ge _
  have hmono : ∀ e ∈ t.s.mapped,
      e ∈ (t.s.next_addr, pages_needed (n + SIZEOF_BLOCK_HEAD + SIZEOF_CHUNK_HEAD) * PAGE_SIZE)
        :: t.s.mapped := fun e he => List.mem_cons_of_mem _ he
  have hnn : t.s.next_addr ≤ t.s.next_addr +
      pages_needed (n + SIZEOF_BLOCK_HEAD + SIZEOF_CHUNK_HEAD) * PAGE_SIZE := by omega
  constructor
  case uninit => intro h; exact ht.uninit h
  case lists_len => exact ht.lists_len
  case chunks_wf =>
    intro b hb c hc
    exact BucketWF_mono hnn hmono (ht.chunks_wf b hb c hc)
  case leaked_wf =>
    intro c hc
    exact RangeWF_mono hnn (ht.leaked_wf c hc)
  case bigs_wf =>
    intro g hg
    rcases List.mem_cons.mp hg with rfl | hold
    · refine ⟨?_, hclen, ⟨hple, le_refl _, ?_⟩, List.mem_cons_self _ _, ?_⟩
      · show 0 < n + SIZEOF_BLOCK_HEAD + SIZEOF_CHUNK_HEAD
        rw [hbh, hch]; omega
      · show 0 < pages_needed (n + SIZEOF_BLOCK_HEAD + SIZEOF_CHUNK_HEAD) * PAGE_SIZE
        omega
      · show PAGE_SIZE ≤ pages_needed (n + SIZEOF_BLOCK_HEAD + SIZEOF_CHUNK_HEAD) * PAGE_SIZE
        exact pages_needed_ge_page (by rw [hbh, hch]; omega)
    · exact BigWF_mono hnn hmono (ht.bigs_wf g hold)
  case ranges_disj =>
    have hperm : List.Perm
        (((joinL t.s.lists).map bucketRange ++ t.s.leaked.map bucketRange) ++
          (((t.s.next_addr,
              pages_needed (n + SIZEOF_BLOCK_HEAD + SIZEOF_CHUNK_HEAD) * PAGE_SIZE) : Nat × Nat)
            :: t.s.bigs.map bigRange))
        (((t.s.next_addr,
            pages_needed (n + SIZEOF_BLOCK_HEAD + SIZEOF_CHUNK_HEAD) * PAGE_SIZE) : Nat × Nat)
          :: chunkRanges t.s) := by
      unfold chunkRanges
      exact List.perm_middle
    have hcons : ((((t.s.next_addr,
        pages_needed (n + SIZEOF_BLOCK_HEAD + SIZEOF_CHUNK_HEAD) * PAGE_SIZE)) : Nat × Nat)
          :: chunkRanges t.s).Pairwise RDisj := by
      refine List.pairwise_cons.mpr ⟨fun r hr => ?_, ht.ranges_disj⟩
      have hw := ranges_wf_of_inv ht r hr
      exact Or.inr (by have := hw.2.1; simp only; omega)
    exact hcons.perm hperm.symm (fun {x y} h => RDisj_symm h)
  case live_wf =>
    intro e he
    rcases List.mem_cons.mp he with rfl | hold
    · exact Or.inr ⟨⟨t.s.next_addr, n + SIZEOF_BLOCK_HEAD + SIZEOF_CHUNK_HEAD,
        pages_needed (n + SIZEOF_BLOCK_HEAD + SIZEOF_CHUNK_HEAD) * PAGE_SIZE⟩,
        List.mem_cons_self _ _, rfl, rfl, assocLookup_cons_eq⟩
    · rcases ht.live_wf e hold with ⟨b, c, i, hb, hc, hi, hbit, hp, hsz, hlk⟩ |
        ⟨g, hg, hp, hsz, hlk⟩
      · obtain ⟨hcs, hslot, hnext, hbase⟩ := live_bucket_bounds ht hb hc hi
        have hsspos := bucketSize_pos b hb
        refine Or.inl ⟨b, c, i, hb, hc, hi, hbit, hp, hsz, ?_⟩
        rw [assocLookup_cons_ne (by omega)]
        exact hlk
      · have hwf := ht.bigs_wf g hg
        have h1 : g.chunk_size ≤ g.mapped_len := hwf.2.1
        have h2 : g.base + g.mapped_len ≤ t.s.next_addr := hwf.2.2.1.2.1
        refine Or.inr ⟨g, List.mem_cons_of_mem _ hg, hp, hsz, ?_⟩
        rw [assocLookup_cons_ne (by rw [hch] at hsz ⊢; rw [hbh] at hsz; omega)]
        exact hlk
  case live_disj =>
    refine List.pairwise_cons.mpr ⟨fun e' he' => ?_, ht.live_disj⟩
    have h1 := (live_end_le ht he').1
    refine Or.inr ?_
    simp only
    rw [hbh, hch]
    omega
  case live_ptr_ne =>
    refine List.pairwise_cons.mpr ⟨fun e' he' => ?_, ht.live_ptr_ne⟩
    have h1 := (live_end_le ht he').1
    simp only
    rw [hbh, hch]
    omega
  case log_nz =>
    intro p hp
    rcases List.mem_cons.mp hp with rfl | hold
    · rw [hbh, hch]; omega
    · exact ht.log_nz p hold
  case munmap_ok =>
    intro e he
    exact MunmapWF_mono hmono (ht.munmap_ok e he)
  case page_le_next =>
    show PAGE_SIZE ≤ t.s.next_addr +
      pages_needed (n + SIZEOF_BLOCK_HEAD + SIZEOF_CHUNK_HEAD) * PAGE_SIZE
    omega

lemma bucketPages_pos : ∀ b, b < 8 → 0 < bucketPages b := by decide

lemma slotCount_le_256 : ∀ b, b < 8 → slotCount b ≤ 256 := by decide

lemma getD_replicate_nil (b : Nat) :
    (List.replicate 8 ([] : List BucketChunk)).getD b [] = [] := by
  rcases b with _|_|_|_|_|_|_|_|b <;> rfl

lemma udisj_of_ranges {t : TraceState} (ht : TraceInv t) {r1 r2 : Nat × Nat}
    (h1 : r1 ∈ chunkRanges t.s) (h2 : r2 ∈ chunkRanges t.s) (hne : r1 ≠ r2)
    {e1 e2 : Nat × Nat} (b1l : r1.1 ≤ e1.1) (b1r : e1.1 + e1.2 ≤ r1.1 + r1.2)
    (b2l : r2.1 ≤ e2.1) (b2r : e2.1 + e2.2 ≤ r2.1 + r2.2) : UDisj e1 e2 := by
  have hd := (List.Pairwise.forall (fun {x y} h => RDisj_symm h) ht.ranges_disj) h1 h2 hne
  unfold RDisj at hd
  unfold UDisj
  omega

lemma allocate_bucket_eq (b : Nat) (s : AllocState) :
    allocate_bucket b s =
      { s with
        lists := s.lists.set b
          ((⟨s.next_addr, b, bucketPages b * PAGE_SIZE, bucketPattern b⟩ : BucketChunk)
            :: s.lists.getD b [])
        next_addr := s.next_addr + bucketPages b * PAGE_SIZE
        mapped := (s.next_addr, bucketPages b * PAGE_SIZE) :: s.mapped } := rfl

lemma bucket_chunk_alloc_inv {t : TraceState} (ht : TraceInv t) {bn : Nat} (hbn : bn < 8)
    (hinit : t.s.inited = true) :
    TraceInv ⟨allocate_bucket bn t.s, t.live, t.log⟩ := by
  rw [allocate_bucket_eq]
  have hple : PAGE_SIZE ≤ t.s.next_addr := ht.page_le_next
  have hppos := bucketPages_pos bn hbn
  have hcpos : 0 < bucketPages bn * PAGE_SIZE := by
    rw [show PAGE_SIZE = 4096 from rfl]
    omega
  have hblen : bn < t.s.lists.length := by rw [ht.lists_len]; exact hbn
  have hnn : t.s.next_addr ≤ t.s.next_addr + bucketPages bn * PAGE_SIZE := by omega
  have hmono : ∀ e ∈ t.s.mapped,
      e ∈ (t.s.next_addr, bucketPages bn * PAGE_SIZE) :: t.s.mapped :=
    fun e he => List.mem_cons_of_mem _ he
  have hperm : List.Perm
      (chunkRanges { t.s with
        lists := t.s.lists.set bn
          ((⟨t.s.next_addr, bn, bucketPages bn * PAGE_SIZE, bucketPattern bn⟩ : BucketChunk)
            :: t.s.lists.getD bn [])
        next_addr := t.s.next_addr + bucketPages bn * PAGE_SIZE
        mapped := (t.s.next_addr, bucketPages bn * PAGE_SIZE) :: t.s.mapped })
      (((t.s.next_addr, bucketPages bn * PAGE_SIZE) : Nat × Nat) :: chunkRanges t.s) := by
    have ha := (joinL_set_perm
      ((⟨t.s.next_addr, bn, bucketPages bn * PAGE_SIZE, bucketPattern bn⟩ : BucketChunk)
        :: t.s.lists.getD bn []) hblen).map bucketRange
    rw [List.map_append, List.map_cons] at ha
    have hb := ((joinL_getD_perm hblen).symm).map bucketRange
    rw [List.map_append] at hb
    have h1 : List.Perm
        ((joinL (t.s.lists.set bn
          ((⟨t.s.next_addr, bn, bucketPages bn * PAGE_SIZE, bucketPattern bn⟩ : BucketChunk)
            :: t.s.lists.getD bn []))).map bucketRange)
        (((t.s.next_addr, bucketPages bn * PAGE_SIZE) : Nat × Nat)
          :: (joinL t.s.lists).map bucketRange) :=
      ha.trans (List.Perm.cons _ hb)
    exact (h1.append_right _).append_right _
  constructor
  case uninit =>
    intro h
    rw [hinit] at h
    exact Bool.noConfusion h
  case lists_len =>
    show (t.s.lists.set bn _).length = 8
    rw [List.length_set]
    exact ht.lists_len
  case chunks_wf =>
    intro b' hb' c' hc'
    by_cases hbb : bn = b'
    · subst hbb
      rw [getD_set_self _ hblen] at hc'
      rcases List.mem_cons.mp hc' with rfl | hold
      · exact ⟨rfl, rfl, pattern_valid bn hbn, fun i hi h => h,
          ⟨hple, le_refl _, hcpos⟩, List.mem_cons_self _ _⟩
      · exact BucketWF_mono hnn hmono (ht.chunks_wf bn hbn c' hold)
    · rw [getD_set_ne _ hbb] at hc'
      exact BucketWF_mono hnn hmono (ht.chunks_wf b' hb' c' hc')
  case leaked_wf =>
    intro c hc
    exact RangeWF_mono hnn (ht.leaked_wf c hc)
  case bigs_wf =>
    intro g hg
    exact BigWF_mono hnn hmono (ht.bigs_wf g hg)
  case ranges_disj =>
    have hcons : ((((t.s.next_addr, bucketPages bn * PAGE_SIZE)) : Nat × Nat)
        :: chunkRanges t.s).Pairwise RDisj := by
      refine List.pairwise_cons.mpr ⟨fun r hr => ?_, ht.ranges_disj⟩
      have hw := ranges_wf_of_inv ht r hr
      exact Or.inr (by have := hw.2.1; simp only; omega)
    exact hcons.perm hperm.symm (fun {x y} h => RDisj_symm h)
  case live_wf =>
    intro e he
    rcases ht.live_wf e he with ⟨b2, c2, i2, hb2, hc2, hi2, hbit, hp, hsz, hlk⟩ |
      ⟨g, hg, hp, hsz, hlk⟩
    · refine Or.inl ⟨b2, c2, i2, hb2, ?_, hi2, hbit, hp, hsz, hlk⟩
      by_cases hbb : bn = b2
      · subst hbb
        rw [getD_set_self _ hblen]
        exact List.mem_cons_of_mem _ hc2
      · rw [getD_set_ne _ hbb]
        exact hc2
    · exact Or.inr ⟨g, hg, hp, hsz, hlk⟩
  case live_disj => exact ht.live_disj
  case live_ptr_ne => exact ht.live_ptr_ne
  case log_nz => exact ht.log_nz
  case munmap_ok =>
    intro e he
    exact MunmapWF_mono hmono (ht.munmap_ok e he)
  case page_le_next =>
    show PAGE_SIZE ≤ t.s.next_addr + bucketPages bn * PAGE_SIZE
    omega

/-- Carving one slot out of a usable chunk (the tail of `xmalloc`'s
bucketed path) preserves the trace invariant: the freshly set bit, the
slot address arithmetic, and the new back-reference stay consistent with
every other live allocation. -/
lemma carve_inv {t : TraceState} (ht : TraceInv t) {bn i n : Nat} {c : BucketChunk}
    (hbn : bn < 8)
    (hget : (t.s.lists.getD bn []).get? i = some c)
    (hnef : c.allocations ≠ FILLED_STRING)
    (hsz : n + SIZEOF_BLOCK_HEAD < bucketSize bn) :
    TraceInv ⟨{ t.s with
        lists := t.s.lists.set bn ((t.s.lists.getD bn []).set i
          { c with allocations := FLIP c.allocations (NFFS c.allocations - 1) })
        backrefs := (c.base + SIZEOF_BUCKET_HEAD + (NFFS c.allocations - 1) * bucketSize bn,
          c.base) :: t.s.backrefs },
      (c.base + SIZEOF_BUCKET_HEAD + (NFFS c.allocations - 1) * bucketSize bn
        + SIZEOF_BLOCK_HEAD, n) :: t.live,
      (c.base + SIZEOF_BUCKET_HEAD + (NFFS c.allocations - 1) * bucketSize bn
        + SIZEOF_BLOCK_HEAD) :: t.log⟩ := by
  have hblen : bn < t.s.lists.length := by rw [ht.lists_len]; exact hbn
  have hmem : c ∈ t.s.lists.getD bn [] := List.get?_mem hget
  have hmemJ : c ∈ joinL t.s.lists := mem_joinL_of_getD hblen hmem
  have hwf := ht.chunks_wf bn hbn c hmem
  have hv : validB c.allocations := hwf.2.2.1
  have hsup := hwf.2.2.2.1
  have hcs : c.chunk_size = bucketPages bn * PAGE_SIZE := hwf.2.1
  have hrange : RangeWF t.s.next_addr (bucketRange c) := hwf.2.2.2.2.1
  obtain ⟨k, hnffs, hkslot, hkbit, hklow⟩ := alloc_map_facts hbn hv hsup hnef
  have hkeq : NFFS c.allocations - 1 = k := by omega
  rw [hkeq]
  have hk256 : k < 256 := by have := slotCount_le_256 bn hbn; omega
  have hsspos : 0 < bucketSize bn := bucketSize_pos bn hbn
  have hkey_lt : c.base + SIZEOF_BUCKET_HEAD + k * bucketSize bn + bucketSize bn
      ≤ c.base + c.chunk_size := by
    have h1 := slot_end_le hbn hkslot
    rw [hcs]
    omega
  have hbase_lo : PAGE_SIZE ≤ c.base := hrange.1
  have hbase_hi : c.base + c.chunk_size ≤ t.s.next_addr := hrange.2.1
  have hmv : validB (FLIP c.allocations k) := validB_FLIP hv hk256
  have hbit_set : bitAt (FLIP c.allocations k) k = true := by
    rw [bitAt_FLIP hk256 hk256, if_pos rfl, hkbit]
    rfl
  have hbit_other : ∀ j, j < 256 → j ≠ k →
      bitAt (FLIP c.allocations k) j = bitAt c.allocations j := by
    intro j hj hne
    rw [bitAt_FLIP hk256 hj, if_neg hne]
  have hsup' : ∀ j, j < 256 → bitAt (bucketPattern bn) j = true →
      bitAt (FLIP c.allocations k) j = true := by
    intro j hj hpat
    have hjk : j ≠ k := by
      intro he
      subst he
      rw [(pattern_bits bn hbn j hj).mpr hkslot] at hpat
      cases hpat
    rw [hbit_other j hj hjk]
    exact hsup j hj hpat
  have hmapset : ((t.s.lists.getD bn []).set i
      { c with allocations := FLIP c.allocations k }).map bucketRange =
      (t.s.lists.getD bn []).map bucketRange := by
    rw [List.map_set]
    apply set_get?_self
    rw [List.get?_map, hget]
    rfl
  have hjp := (joinL_set_perm ((t.s.lists.getD bn []).set i
    { c with allocations := FLIP c.allocations k }) hblen).map bucketRange
  rw [List.map_append, hmapset] at hjp
  have hjb := ((joinL_getD_perm hblen).symm).map bucketRange
  rw [List.map_append] at hjb
  have hperm : List.Perm
      (chunkRanges { t.s with
        lists := t.s.lists.set bn ((t.s.lists.getD bn []).set i
          { c with allocations := FLIP c.allocations k })
        backrefs := (c.base + SIZEOF_BUCKET_HEAD + k * bucketSize bn, c.base)
          :: t.s.backrefs })
      (chunkRanges t.s) :=
    (((hjp.trans hjb)).append_right _).append_right _
  constructor
  case uninit =>
    intro h
    have hun := ht.uninit h
    exfalso
    rw [hun, getD_replicate_nil] at hget
    cases hget
  case lists_len =>
    show (t.s.lists.set bn _).length = 8
    rw [List.length_set]
    exact ht.lists_len
  case chunks_wf =>
    intro b' hb' c' hc'
    by_cases hbb : bn = b'
    · subst hbb
      rw [getD_set_self _ hblen] at hc'
      by_cases hcc : c' = { c with allocations := FLIP c.allocations k }
      · subst hcc
        exact ⟨hwf.1, hcs, hmv, hsup', hrange, hwf.2.2.2.2.2⟩
      · have hc'' : c' ∈ t.s.lists.getD bn [] := by
          have hp := (set_perm_cons_eraseIdx hget
            { c with allocations := FLIP c.allocations k }).mem_iff.mp hc'
          rcases List.mem_cons.mp hp with h1 | h2
          · exact absurd h1 hcc
          · exact (perm_cons_eraseIdx hget).symm.mem_iff.mp (List.mem_cons_of_mem _ h2)
        exact ht.chunks_wf bn hbn c' hc''
    · rw [getD_set_ne _ hbb] at hc'
      exact ht.chunks_wf b' hb' c' hc'
  case leaked_wf => exact ht.leaked_wf
  case bigs_wf => exact ht.bigs_wf
  case ranges_disj =>
    exact ht.ranges_disj.perm hperm.symm (fun {x y} h => RDisj_symm h)
  case live_wf =>
    intro e he
    rcases List.mem_cons.mp he with rfl | hold
    · refine Or.inl ⟨bn, { c with allocations := FLIP c.allocations k }, k, hbn, ?_, hkslot,
        hbit_set, rfl, hsz, ?_⟩
      · rw [getD_set_self _ hblen]
        exact mem_set_self hget _
      · exact assocLookup_cons_eq
    · rcases ht.live_wf e hold with ⟨b2, c2, i2, hb2, hc2, hi2, hbit2, hp2, hsz2, hlk2⟩ |
        ⟨g, hg, hpg, hszg, hlkg⟩
      · have hss2 : 0 < bucketSize b2 := bucketSize_pos b2 hb2
        obtain ⟨hcs2, hslot2, hnext2, hbase2⟩ := live_bucket_bounds ht hb2 hc2 hi2
        by_cases hcbase : c2.base = c.base
        · have hc2c : c2 = c := bucket_chunk_inj ht
            (mem_joinL_of_getD (by rw [ht.lists_len]; exact hb2) hc2) hmemJ hcbase
          subst hc2c
          have hb2bn : b2 = bn := chunk_class_unique ht hb2 hbn hc2 hmem
          subst hb2bn
          have hik : i2 ≠ k := by
            intro he2
            rw [he2, hkbit] at hbit2
            cases hbit2
          have hi2' : i2 < 256 := by have := slotCount_le_256 b2 hb2; omega
          refine Or.inl ⟨b2, { c2 with allocations := FLIP c2.allocations k }, i2, hb2, ?_,
            hi2, ?_, hp2, hsz2, ?_⟩
          · rw [getD_set_self _ hblen]
            exact mem_set_self hget _
          · rw [hbit_other i2 hi2' hik]
            exact hbit2
          · rw [assocLookup_cons_ne (slot_addr_ne hsspos (fun h => hik h.symm))]
            exact hlk2
        · have hc2ne : c2 ≠ c := fun h => hcbase (by rw [h])
          have hrne : bucketRange c2 ≠ bucketRange c := by
            intro h
            exact hcbase (congrArg Prod.fst h)
          have hkey2_ne : c.base + SIZEOF_BUCKET_HEAD + k * bucketSize bn ≠
              c2.base + SIZEOF_BUCKET_HEAD + i2 * bucketSize b2 := by
            refine addr_ne_of_ranges ht (bucket_range_mem hmemJ)
              (bucket_range_mem (mem_joinL_of_getD (by rw [ht.lists_len]; exact hb2) hc2))
              (fun h => hrne h.symm) ?_ ?_ ?_ ?_
            · show c.base ≤ c.base + SIZEOF_BUCKET_HEAD + k * bucketSize bn
              omega
            · show c.base + SIZEOF_BUCKET_HEAD + k * bucketSize bn < c.base + c.chunk_size
              omega
            · show c2.base ≤ c2.base + SIZEOF_BUCKET_HEAD + i2 * bucketSize b2
              omega
            · show c2.base + SIZEOF_BUCKET_HEAD + i2 * bucketSize b2 <
                c2.base + c2.chunk_size
              omega
          refine Or.inl ⟨b2, c2, i2, hb2, ?_, hi2, hbit2, hp2, hsz2, ?_⟩
          · by_cases hbb : bn = b2
            · subst hbb
              rw [getD_set_self _ hblen]
              exact mem_set_of_mem_ne hget hc2 hc2ne
            · rw [getD_set_ne _ hbb]
              exact hc2
          · rw [assocLookup_cons_ne hkey2_ne]
            exact hlk2
      · have hgwf := ht.bigs_wf g hg
        have hgr : RangeWF t.s.next_addr (bigRange g) := hgwf.2.2.1
        have hkeyg_ne : c.base + SIZEOF_BUCKET_HEAD + k * bucketSize bn ≠
            g.base + SIZEOF_CHUNK_HEAD := by
          have hbng : c.base ≠ g.base := bucket_big_base_ne ht hmemJ hg
          have hrne : bucketRange c ≠ bigRange g := by
            intro h
            exact hbng (congrArg Prod.fst h)
          refine addr_ne_of_ranges ht (bucket_range_mem hmemJ) (big_range_mem hg) hrne
            ?_ ?_ ?_ ?_
          · show c.base ≤ c.base + SIZEOF_BUCKET_HEAD + k * bucketSize bn
            omega
          · show c.base + SIZEOF_BUCKET_HEAD + k * bucketSize bn < c.base + c.chunk_size
            omega
          · show g.base ≤ g.base + SIZEOF_CHUNK_HEAD
            omega
          · show g.base + SIZEOF_CHUNK_HEAD < g.base + g.mapped_len
            have h1 : g.chunk_size ≤ g.mapped_len := hgwf.2.1
            have h2 : e.2 + SIZEOF_BLOCK_HEAD + SIZEOF_CHUNK_HEAD = g.chunk_size := hszg
            rw [show SIZEOF_CHUNK_HEAD = 16 from rfl] at h2 ⊢
            rw [show SIZEOF_BLOCK_HEAD = 8 from rfl] at h2
            omega
        refine Or.inr ⟨g, hg, hpg, hszg, ?_⟩
        rw [assocLookup_cons_ne hkeyg_ne]
        exact hlkg
  case live_disj =>
    refine List.pairwise_cons.mpr ⟨fun e' he' => ?_, ht.live_disj⟩
    rcases ht.live_wf e' he' with ⟨b2, c2, i2, hb2, hc2, hi2, hbit2, hp2, hsz2, _⟩ |
      ⟨g, hg, hpg, hszg, _⟩
    · have hss2 : 0 < bucketSize b2 := bucketSize_pos b2 hb2
      obtain ⟨hcs2, hslot2, hnext2, hbase2⟩ := live_bucket_bounds ht hb2 hc2 hi2
      by_cases hcbase : c2.base = c.base
      · have hc2c : c2 = c := bucket_chunk_inj ht
          (mem_joinL_of_getD (by rw [ht.lists_len]; exact hb2) hc2) hmemJ hcbase
        subst hc2c
        have hb2bn : b2 = bn := chunk_class_unique ht hb2 hbn hc2 hmem
        subst hb2bn
        have hik : i2 ≠ k := by
          intro he2
          rw [he2, hkbit] at hbit2
          cases hbit2
        have hud := @slot_udisj c2.base (bucketSize b2) k i2 n e'.2
          (fun h => hik h.symm) (by omega) (by omega)
        simp only [UDisj] at hud ⊢
        omega
      · have hrne : bucketRange c2 ≠ bucketRange c := by
          intro h
          exact hcbase (congrArg Prod.fst h)
        refine udisj_of_ranges ht (bucket_range_mem hmemJ)
          (bucket_range_mem (mem_joinL_of_getD (by rw [ht.lists_len]; exact hb2) hc2))
          (fun h => hrne h.symm) ?_ ?_ ?_ ?_
        · show c.base ≤ c.base + SIZEOF_BUCKET_HEAD + k * bucketSize bn + SIZEOF_BLOCK_HEAD
          omega
        · show c.base + SIZEOF_BUCKET_HEAD + k * bucketSize bn + SIZEOF_BLOCK_HEAD + n ≤
            c.base + c.chunk_size
          omega
        · show c2.base ≤ e'.1
          rw [hp2]; omega
        · show e'.1 + e'.2 ≤ c2.base + c2.chunk_size
          rw [hp2]
          omega
    · have hgwf := ht.bigs_wf g hg
      have hbng : c.base ≠ g.base := bucket_big_base_ne ht hmemJ hg
      have hrne : bucketRange c ≠ bigRange g := by
        intro h
        exact hbng (congrArg Prod.fst h)
      have h1 : g.chunk_size ≤ g.mapped_len := hgwf.2.1
      refine udisj_of_ranges ht (bucket_range_mem hmemJ) (big_range_mem hg) hrne
        ?_ ?_ ?_ ?_
      · show c.base ≤ c.base + SIZEOF_BUCKET_HEAD + k * bucketSize bn + SIZEOF_BLOCK_HEAD
        omega
      · show c.base + SIZEOF_BUCKET_HEAD + k * bucketSize bn + SIZEOF_BLOCK_HEAD + n ≤
          c.base + c.chunk_size
        omega
      · rw [hpg]
        show g.base ≤ g.base + SIZEOF_CHUNK_HEAD + SIZEOF_BLOCK_HEAD
        omega
      · rw [hpg]
        show g.base + SIZEOF_CHUNK_HEAD + SIZEOF_BLOCK_HEAD + e'.2 ≤ g.base + g.mapped_len
        rw [show SIZEOF_CHUNK_HEAD = 16 from rfl] at hszg ⊢
        rw [show SIZEOF_BLOCK_HEAD = 8 from rfl] at hszg ⊢
        omega
  case live_ptr_ne =>
    refine List.pairwise_cons.mpr ⟨fun e' he' => ?_, ht.live_ptr_ne⟩
    rcases ht.live_wf e' he' with ⟨b2, c2, i2, hb2, hc2, hi2, hbit2, hp2, hsz2, _⟩ |
      ⟨g, hg, hpg, hszg, _⟩
    · have hss2 : 0 < bucketSize b2 := bucketSize_pos b2 hb2
      obtain ⟨hcs2, hslot2, hnext2, hbase2⟩ := live_bucket_bounds ht hb2 hc2 hi2
      by_cases hcbase : c2.base = c.base
      · have hc2c : c2 = c := bucket_chunk_inj ht
          (mem_joinL_of_getD (by rw [ht.lists_len]; exact hb2) hc2) hmemJ hcbase
        subst hc2c
        have hb2bn : b2 = bn := chunk_class_unique ht hb2 hbn hc2 hmem
        subst hb2bn
        have hik : i2 ≠ k := by
          intro he2
          rw [he2, hkbit] at hbit2
          cases hbit2
        rw [hp2]
        simp only
        have := @slot_addr_ne c2.base (bucketSize b2) k i2 hsspos (fun h => hik h.symm)
        omega
      · have hrne : bucketRange c2 ≠ bucketRange c := by
          intro h
          exact hcbase (congrArg Prod.fst h)
        have hne : c.base + SIZEOF_BUCKET_HEAD + k * bucketSize bn + SIZEOF_BLOCK_HEAD ≠
            e'.1 := by
          refine addr_ne_of_ranges ht (bucket_range_mem hmemJ)
            (bucket_range_mem (mem_joinL_of_getD (by rw [ht.lists_len]; exact hb2) hc2))
            (fun h => hrne h.symm) ?_ ?_ ?_ ?_
          · show c.base ≤ c.base + SIZEOF_BUCKET_HEAD + k * bucketSize bn + SIZEOF_BLOCK_HEAD
            omega
          · show c.base + SIZEOF_BUCKET_HEAD + k * bucketSize bn + SIZEOF_BLOCK_HEAD <
              c.base + c.chunk_size
            rw [show SIZEOF_BLOCK_HEAD = 8 from rfl]
            rw [show SIZEOF_BLOCK_HEAD = 8 from rfl] at hsz
            omega
          · show c2.base ≤ e'.1
            rw [hp2]; omega
          · show e'.1 < c2.base + c2.chunk_size
            rw [hp2]
            rw [show SIZEOF_BLOCK_HEAD = 8 from rfl] at hsz2 ⊢
            omega
        exact hne
    · have hgwf := ht.bigs_wf g hg
      have hbng : c.base ≠ g.base := bucket_big_base_ne ht hmemJ hg
      have hrne : bucketRange c ≠ bigRange g := by
        intro h
        exact hbng (congrArg Prod.fst h)
      have h1 : g.chunk_size ≤ g.mapped_len := hgwf.2.1
      have hne : c.base + SIZEOF_BUCKET_HEAD + k * bucketSize bn + SIZEOF_BLOCK_HEAD ≠
          e'.1 := by
        refine addr_ne_of_ranges ht (bucket_range_mem hmemJ) (big_range_mem hg) hrne
          ?_ ?_ ?_ ?_
        · show c.base ≤ c.base + SIZEOF_BUCKET_HEAD + k * bucketSize bn + SIZEOF_BLOCK_HEAD
          omega
        · show c.base + SIZEOF_BUCKET_HEAD + k * bucketSize bn + SIZEOF_BLOCK_HEAD <
            c.base + c.chunk_size
          rw [show SIZEOF_BLOCK_HEAD = 8 from rfl]
          rw [show SIZEOF_BLOCK_HEAD = 8 from rfl] at hsz
          omega
        · rw [hpg]
          show g.base ≤ g.base + SIZEOF_CHUNK_HEAD + SIZEOF_BLOCK_HEAD
          omega
        · rw [hpg]
          show g.base + SIZEOF_CHUNK_HEAD + SIZEOF_BLOCK_HEAD < g.base + g.mapped_len
          have h2 : PAGE_SIZE ≤ g.mapped_len := hgwf.2.2.2.2
          rw [show SIZEOF_CHUNK_HEAD = 16 from rfl]
          rw [show SIZEOF_BLOCK_HEAD = 8 from rfl]
          rw [show PAGE_SIZE = 4096 from rfl] at h2
          omega
      exact hne
  case log_nz =>
    intro p hp
    rcases List.mem_cons.mp hp with rfl | hold
    · have : PAGE_SIZE = 4096 := rfl
      omega
    · exact ht.log_nz p hold
  case munmap_ok => exact ht.munmap_ok
  case page_le_next => exact ht.page_le_next

lemma init_lists_eq {s : AllocState} (h0 : s.inited = false → s.lists = List.replicate 8 []) :
    init_lists s = { s with inited := true } := by
  obtain ⟨i, ls, bg, lk, br, na, mp, ml⟩ := s
  cases i with
  | true => rfl
  | false =>
    have hls : ls = List.replicate 8 [] := h0 rfl
    subst hls
    rfl

/-- `xmalloc` preserves the trace invariant when its result is recorded as
a new live allocation. -/
lemma xmalloc_inv {t : TraceState} (ht : TraceInv t) {n : Nat} {ps : Nat × AllocState}
    (hn : n + SIZEOF_BLOCK_HEAD + SIZEOF_CHUNK_HEAD < 2 ^ 64)
    (hps : xmalloc n t.s = some ps) :
    TraceInv ⟨ps.2, (ps.1, n) :: t.live, ps.1 :: t.log⟩ := by
  have hm8 : (n + SIZEOF_BLOCK_HEAD) % 2 ^ 64 = n + SIZEOF_BLOCK_HEAD :=
    Nat.mod_eq_of_lt (Nat.lt_of_le_of_lt (Nat.le_add_right _ _) hn)
  have hie : init_lists t.s = { t.s with inited := true } := init_lists_eq ht.uninit
  have ht1 : TraceInv ⟨init_lists t.s, t.live, t.log⟩ := by
    rw [hie]
    exact inv_set_inited ht
  have hinit1 : (init_lists t.s).inited = true := by rw [hie]
  rcases get_bucket_cases (n + SIZEOF_BLOCK_HEAD) with hgb | ⟨b, hgb, hb8, hlt⟩
  · have hx : xmalloc n t.s = xbig_malloc (n + SIZEOF_BLOCK_HEAD) (init_lists t.s) := by
      simp only [xmalloc]
      rw [hm8]
      rw [hgb]
      rw [if_pos rfl]
    rw [hx] at hps
    exact big_alloc_inv ht1 hn hps
  · have hne1 : ¬(get_bucket (n + SIZEOF_BLOCK_HEAD) = -1) := by
      rw [hgb]
      intro h
      have h2 : (0 : Int) ≤ Int.ofNat b := Int.ofNat_nonneg b
      rw [h] at h2
      exact absurd h2 (by decide)
    cases hfind : findIdxFrom (fun c => ! EQUAL c.allocations FILLED_STRING)
        ((init_lists t.s).lists.getD b []) with
    | some i =>
      obtain ⟨c, hgetc, hpredc⟩ := findIdxFrom_some_elem hfind
      have hnef : c.allocations ≠ FILLED_STRING := by
        rw [Bool.not_eq_true'] at hpredc
        exact EQUAL_false_iff.mp hpredc
      have hx : xmalloc n t.s = some
          (c.base + SIZEOF_BUCKET_HEAD + (NFFS c.allocations - 1) * bucketSize b
            + SIZEOF_BLOCK_HEAD,
           { init_lists t.s with
             lists := (init_lists t.s).lists.set b (((init_lists t.s).lists.getD b []).set i
               { c with allocations := FLIP c.allocations (NFFS c.allocations - 1) })
             backrefs := (c.base + SIZEOF_BUCKET_HEAD
               + (NFFS c.allocations - 1) * bucketSize b, c.base)
               :: (init_lists t.s).backrefs }) := by
        simp only [xmalloc, find_free_bucket_space]
        rw [hm8]
        rw [hgb, if_neg (by rw [← hgb]; exact hne1)]
        rw [show (Int.ofNat b).toNat = b from rfl]
        rw [hfind]
        simp only
        rw [hgetc]
      rw [hx] at hps
      obtain rfl := (Option.some.inj hps).symm
      exact carve_inv ht1 hb8 hgetc hnef hlt
    | none =>
      have ht2 : TraceInv ⟨allocate_bucket b (init_lists t.s), t.live, t.log⟩ :=
        bucket_chunk_alloc_inv ht1 hb8 hinit1
      have hblen1 : b < (init_lists t.s).lists.length := by
        rw [hie]
        show b < t.s.lists.length
        rw [ht.lists_len]
        exact hb8
      have hget0 : ((allocate_bucket b (init_lists t.s)).lists.getD b []).get? 0 =
          some ⟨(init_lists t.s).next_addr, b, bucketPages b * PAGE_SIZE, bucketPattern b⟩ := by
        rw [allocate_bucket_eq]
        simp only
        rw [getD_set_self _ hblen1]
        rfl
      have hnef : (⟨(init_lists t.s).next_addr, b, bucketPages b * PAGE_SIZE,
          bucketPattern b⟩ : BucketChunk).allocations ≠ FILLED_STRING :=
        pattern_ne_FILLED b hb8
      have hx : xmalloc n t.s = some
          ((⟨(init_lists t.s).next_addr, b, bucketPages b * PAGE_SIZE,
              bucketPattern b⟩ : BucketChunk).base + SIZEOF_BUCKET_HEAD
            + (NFFS (bucketPattern b) - 1) * bucketSize b + SIZEOF_BLOCK_HEAD,
           { allocate_bucket b (init_lists t.s) with
             lists := (allocate_bucket b (init_lists t.s)).lists.set b
               (((allocate_bucket b (init_lists t.s)).lists.getD b []).set 0
                 { (⟨(init_lists t.s).next_addr, b, bucketPages b * PAGE_SIZE,
                     bucketPattern b⟩ : BucketChunk) with
                   allocations := FLIP (bucketPattern b) (NFFS (bucketPattern b) - 1) })
             backrefs := ((⟨(init_lists t.s).next_addr, b, bucketPages b * PAGE_SIZE,
                 bucketPattern b⟩ : BucketChunk).base + SIZEOF_BUCKET_HEAD
               + (NFFS (bucketPattern b) - 1) * bucketSize b,
               (⟨(init_lists t.s).next_addr, b, bucketPages b * PAGE_SIZE,
                 bucketPattern b⟩ : BucketChunk).base)
               :: (allocate_bucket b (init_lists t.s)).backrefs }) := by
        simp only [xmalloc, find_free_bucket_space]
        rw [hm8]
        rw [hgb, if_neg (by rw [← hgb]; exact hne1)]
        rw [show (Int.ofNat b).toNat = b from rfl]
        rw [hfind]
        simp only
        rw [hget0]
      rw [hx] at hps
      obtain rfl := (Option.some.inj hps).symm
      exact carve_inv ht2 hb8 hget0 hnef hlt

/-- In a live list with pairwise distinct pointers, everything surviving
the erasure of pointer `e.1` has a different pointer. -/
lemma mem_eraseP_ne :
    ∀ {l : List (Nat × Nat)}, l.Pairwise (fun a b => a.1 ≠ b.1) →
      ∀ {x e : Nat × Nat}, e ∈ l → x ∈ l.eraseP (fun y => y.1 == e.1) → x.1 ≠ e.1 := by
  intro l
  induction l with
  | nil => intro _ x e he; cases he
  | cons a l' ih =>
    intro hp x e he hx
    rcases List.pairwise_cons.mp hp with ⟨ha, hl'⟩
    rw [List.eraseP_cons] at hx
    cases hpa : (a.1 == e.1) with
    | true =>
      rw [hpa] at hx
      simp only [cond_true] at hx
      have hae : a.1 = e.1 := by simpa using hpa
      rcases List.mem_cons.mp he with rfl | he'
      · have hax := ha x hx
        omega
      · exact absurd hae (ha e he')
    | false =>
      rw [hpa] at hx
      simp only [cond_false] at hx
      have hae : ¬ a.1 = e.1 := by simpa using hpa
      rcases List.mem_cons.mp hx with rfl | hx'
      · exact hae
      · rcases List.mem_cons.mp he with rfl | he'
        · exact absurd rfl hae
        · exact ih hl' he' hx'

/-- `xfree` on a live pointer succeeds and preserves the trace invariant
once the freed entry leaves the live set. -/
lemma xfree_inv {t : TraceState} (ht : TraceInv t) {e : Nat × Nat} (he : e ∈ t.live) :
    ∃ s', xfree e.1 t.s = some s' ∧
      TraceInv ⟨s', t.live.eraseP (fun x => x.1 == e.1), t.log⟩ := by
  have hlive' : ∀ x ∈ t.live.eraseP (fun y => y.1 == e.1), x ∈ t.live :=
    fun x hx => (List.eraseP_sublist _).subset hx
  have hne' : ∀ x ∈ t.live.eraseP (fun y => y.1 == e.1), x.1 ≠ e.1 :=
    fun x hx => mem_eraseP_ne ht.live_ptr_ne he hx
  have hdisj' : (t.live.eraseP (fun y => y.1 == e.1)).Pairwise UDisj :=
    List.Pairwise.sublist (List.eraseP_sublist _) ht.live_disj
  have hptr' : (t.live.eraseP (fun y => y.1 == e.1)).Pairwise (fun a b => a.1 ≠ b.1) :=
    List.Pairwise.sublist (List.eraseP_sublist _) ht.live_ptr_ne
  rcases ht.live_wf e he with ⟨b, c, i2, hb, hc, hi2, hbit, hp, hsz, hlk⟩ |
    ⟨g, hg, hpg, hszg, hlkg⟩
  · -- bucketed case
    have hblen : b < t.s.lists.length := by rw [ht.lists_len]; exact hb
    have hmemJ : c ∈ joinL t.s.lists := mem_joinL_of_getD hblen hc
    have hwf := ht.chunks_wf b hb c hc
    have hbi : c.bucket_index = b := hwf.1
    have hcs : c.chunk_size = bucketPages b * PAGE_SIZE := hwf.2.1
    have hv : validB c.allocations := hwf.2.2.1
    have hsup := hwf.2.2.2.1
    have hrange := hwf.2.2.2.2.1
    have hss : 0 < bucketSize b := bucketSize_pos b hb
    have hih : e.1 - SIZEOF_BLOCK_HEAD = c.base + SIZEOF_BUCKET_HEAD + i2 * bucketSize b := by
      rw [hp]; omega
    have huniq : ∀ b' c', b' < t.s.lists.length → c' ∈ t.s.lists.getD b' [] →
        c'.base = c.base → b' = b ∧ c' = c := by
      intro b' c' hb' hm' hbase
      have hb'8 : b' < 8 := by rw [ht.lists_len] at hb'; exact hb'
      have hc'c : c' = c := bucket_chunk_inj ht (mem_joinL_of_getD hb' hm') hmemJ hbase
      subst hc'c
      exact ⟨chunk_class_unique ht hb'8 hb hm' hc, rfl⟩
    obtain ⟨ip, hfc, hgp⟩ := findChunkIn_spec hblen hc huniq
    have hfindnone := find_big_none ht hmemJ
    have hi256 : i2 < 256 := by have := slotCount_le_256 b hb; omega
    have hdiv : (c.base + SIZEOF_BUCKET_HEAD + i2 * bucketSize b
        - (c.base + SIZEOF_BUCKET_HEAD)) / bucketSize b = i2 := by
      rw [show c.base + SIZEOF_BUCKET_HEAD + i2 * bucketSize b
        - (c.base + SIZEOF_BUCKET_HEAD) = i2 * bucketSize b from by omega]
      exact Nat.mul_div_cancel i2 hss
    have hbit_clr : bitAt (FLIP c.allocations i2) i2 = false := by
      rw [bitAt_FLIP hi256 hi256, if_pos rfl, hbit]
      rfl
    have hbit_oth : ∀ j, j < 256 → j ≠ i2 →
        bitAt (FLIP c.allocations i2) j = bitAt c.allocations j := by
      intro j hj hne2
      rw [bitAt_FLIP hi256 hj, if_neg hne2]
    have hmv : validB (FLIP c.allocations i2) := validB_FLIP hv hi256
    have hsup' : ∀ j, j < 256 → bitAt (bucketPattern b) j = true →
        bitAt (FLIP c.allocations i2) j = true := by
      intro j hj hpat
      have hji : j ≠ i2 := by
        intro hh
        subst hh
        rw [(pattern_bits b hb j hj).mpr hi2] at hpat
        cases hpat
      rw [hbit_oth j hj hji]
      exact hsup j hj hpat
    by_cases hEq : EQUAL (FLIP c.allocations i2) (bucketPattern b) = true
    · -- the chunk becomes empty: it is unlinked (and leaked, never unmapped)
      have hfull : FLIP c.allocations i2 = bucketPattern b := EQUAL_iff.mp hEq
      have hxf : xfree e.1 t.s = some { t.s with
          lists := t.s.lists.set b ((t.s.lists.getD b []).eraseIdx ip)
          leaked := { c with allocations := FLIP c.allocations i2 } :: t.s.leaked } := by
        simp only [xfree]
        rw [hih, hlk]
        simp only
        rw [hfindnone]
        simp only
        rw [hfc]
        simp only
        rw [hgp]
        simp only
        rw [hbi, hdiv]
        rw [if_pos hEq]
      refine ⟨_, hxf, ?_⟩
      -- no other live allocation can sit in this chunk
      have hnolive : ∀ x ∈ t.live.eraseP (fun y => y.1 == e.1), ∀ b3 c3 i3, b3 < 8 →
          c3 ∈ t.s.lists.getD b3 [] → i3 < slotCount b3 →
          bitAt c3.allocations i3 = true →
          x.1 = c3.base + SIZEOF_BUCKET_HEAD + i3 * bucketSize b3 + SIZEOF_BLOCK_HEAD →
          c3.base ≠ c.base := by
        intro x hx b3 c3 i3 hb3 hc3 hi3 hbit3 hp3 hbase3
        have hc3c : c3 = c := bucket_chunk_inj ht
          (mem_joinL_of_getD (by rw [ht.lists_len]; exact hb3) hc3) hmemJ hbase3
        subst hc3c
        have hb3b : b3 = b := chunk_class_unique ht hb3 hb hc3 hc
        subst hb3b
        have hi3i2 : i3 ≠ i2 := by
          intro hh
          subst hh
          exact hne' x hx (by rw [hp3, hp])
        have h1 : bitAt (FLIP c3.allocations i2) i3 = true := by
          rw [hbit_oth i3 (by have := slotCount_le_256 b3 hb3; omega) hi3i2]
          exact hbit3
        rw [hfull, (pattern_bits b3 hb3 i3 (by have := slotCount_le_256 b3 hb3; omega)).mpr hi3]
          at h1
        cases h1
      constructor
      ·
        intro h
        have h2 := ht.uninit h
        rw [h2, getD_replicate_nil] at hc
        cases hc
      ·
        show (t.s.lists.set b _).length = 8
        rw [List.length_set]
        exact ht.lists_len
      ·
        intro b' hb' c' hc'
        by_cases hbb : b = b'
        · subst hbb
          rw [getD_set_self _ hblen] at hc'
          exact ht.chunks_wf b hb c' ((List.eraseIdx_sublist _ ip).subset hc')
        · rw [getD_set_ne _ hbb] at hc'
          exact ht.chunks_wf b' hb' c' hc'
      ·
        intro c' hc'
        rcases List.mem_cons.mp hc' with rfl | hold
        · exact hrange
        · exact ht.leaked_wf c' hold
      · exact ht.bigs_wf
      ·
        have hperm1 : List.Perm
            ((joinL (t.s.lists.set b ((t.s.lists.getD b []).eraseIdx ip))).map bucketRange)
            (((t.s.lists.getD b []).eraseIdx ip).map bucketRange
              ++ (joinL (t.s.lists.set b [])).map bucketRange) := by
          have h0 := (joinL_set_perm ((t.s.lists.getD b []).eraseIdx ip) hblen).map bucketRange
          rw [List.map_append] at h0
          exact h0
        have hperm2 : List.Perm ((t.s.lists.getD b []).map bucketRange)
            (bucketRange c :: ((t.s.lists.getD b []).eraseIdx ip).map bucketRange) := by
          have h0 := (perm_cons_eraseIdx hgp).map bucketRange
          rw [List.map_cons] at h0
          exact h0
        have hold : List.Perm (chunkRanges t.s)
            ((bucketRange c :: (((t.s.lists.getD b []).eraseIdx ip).map bucketRange
              ++ (joinL (t.s.lists.set b [])).map bucketRange))
              ++ t.s.leaked.map bucketRange ++ t.s.bigs.map bigRange) := by
          have hA : List.Perm ((joinL t.s.lists).map bucketRange)
              (bucketRange c :: (((t.s.lists.getD b []).eraseIdx ip).map bucketRange
                ++ (joinL (t.s.lists.set b [])).map bucketRange)) := by
            have h0 := (joinL_getD_perm hblen).map bucketRange
            rw [List.map_append] at h0
            exact h0.trans (hperm2.append_right _)
          exact (hA.append_right _).append_right _
        have hnew : List.Perm
            (chunkRanges { t.s with
              lists := t.s.lists.set b ((t.s.lists.getD b []).eraseIdx ip)
              leaked := { c with allocations := FLIP c.allocations i2 } :: t.s.leaked })
            ((bucketRange c :: (((t.s.lists.getD b []).eraseIdx ip).map bucketRange
              ++ (joinL (t.s.lists.set b [])).map bucketRange))
              ++ t.s.leaked.map bucketRange ++ t.s.bigs.map bigRange) := by
          have hstep : List.Perm
              ((((t.s.lists.getD b []).eraseIdx ip).map bucketRange
                ++ (joinL (t.s.lists.set b [])).map bucketRange)
                ++ (bucketRange c :: t.s.leaked.map bucketRange))
              ((bucketRange c :: (((t.s.lists.getD b []).eraseIdx ip).map bucketRange
                ++ (joinL (t.s.lists.set b [])).map bucketRange))
                ++ t.s.leaked.map bucketRange) := List.perm_middle
          have := (hperm1.append_right
            (bucketRange c :: t.s.leaked.map bucketRange)).trans hstep
          exact this.append_right _
        exact (ht.ranges_disj.perm hold (fun {x y} h => RDisj_symm h)).perm hnew.symm
          (fun {x y} h => RDisj_symm h)
      ·
        intro x hx
        rcases ht.live_wf x (hlive' x hx) with ⟨b3, c3, i3, hb3, hc3, hi3, hbit3, hp3, hsz3, hlk3⟩ |
          ⟨g3, hg3, hpg3, hszg3, hlkg3⟩
        · have hbase3 : c3.base ≠ c.base := hnolive x hx b3 c3 i3 hb3 hc3 hi3 hbit3 hp3
          have hc3ne : c3 ≠ c := fun h => hbase3 (by rw [h])
          refine Or.inl ⟨b3, c3, i3, hb3, ?_, hi3, hbit3, hp3, hsz3, hlk3⟩
          by_cases hbb : b = b3
          · subst hbb
            rw [getD_set_self _ hblen]
            exact mem_eraseIdx_of_mem_ne hgp hc3 hc3ne
          · rw [getD_set_ne _ hbb]
            exact hc3
        · exact Or.inr ⟨g3, hg3, hpg3, hszg3, hlkg3⟩
      · exact hdisj'
      · exact hptr'
      · exact ht.log_nz
      · exact ht.munmap_ok
      · exact ht.page_le_next
    · -- the chunk still holds other allocations: bit cleared in place
      have hEqF : EQUAL (FLIP c.allocations i2) (bucketPattern b) = false := by
        cases h : EQUAL (FLIP c.allocations i2) (bucketPattern b)
        · rfl
        · exact absurd h hEq
      have hxf : xfree e.1 t.s = some { t.s with
          lists := t.s.lists.set b ((t.s.lists.getD b []).set ip
            { c with allocations := FLIP c.allocations i2 }) } := by
        simp only [xfree]
        rw [hih, hlk]
        simp only
        rw [hfindnone]
        simp only
        rw [hfc]
        simp only
        rw [hgp]
        simp only
        rw [hbi, hdiv]
        rw [if_neg (by rw [hEqF]; exact Bool.noConfusion)]
      refine ⟨_, hxf, ?_⟩
      have hmapset : (((t.s.lists.getD b []).set ip
          { c with allocations := FLIP c.allocations i2 }).map bucketRange) =
          ((t.s.lists.getD b []).map bucketRange) := by
        rw [List.map_set]
        apply set_get?_self
        rw [List.get?_map, hgp]
        rfl
      have hperm : List.Perm
          (chunkRanges { t.s with
            lists := t.s.lists.set b ((t.s.lists.getD b []).set ip
              { c with allocations := FLIP c.allocations i2 }) })
          (chunkRanges t.s) := by
        have hjp := (joinL_set_perm ((t.s.lists.getD b []).set ip
          { c with allocations := FLIP c.allocations i2 }) hblen).map bucketRange
        rw [List.map_append, hmapset] at hjp
        have hjb := ((joinL_getD_perm hblen).symm).map bucketRange
        rw [List.map_append] at hjb
        exact (((hjp.trans hjb)).append_right _).append_right _
      constructor
      ·
        intro h
        have h2 := ht.uninit h
        rw [h2, getD_replicate_nil] at hc
        cases hc
      ·
        show (t.s.lists.set b _).length = 8
        rw [List.length_set]
        exact ht.lists_len
      ·
        intro b' hb' c' hc'
        by_cases hbb : b = b'
        · subst hbb
          rw [getD_set_self _ hblen] at hc'
          by_cases hcc : c' = { c with allocations := FLIP c.allocations i2 }
          · subst hcc
            exact ⟨hbi, hcs, hmv, hsup', hrange, hwf.2.2.2.2.2⟩
          · have hc'' : c' ∈ t.s.lists.getD b [] := by
              have hq := (set_perm_cons_eraseIdx hgp
                { c with allocations := FLIP c.allocations i2 }).mem_iff.mp hc'
              rcases List.mem_cons.mp hq with h1 | h2
              · exact absurd h1 hcc
              · exact (perm_cons_eraseIdx hgp).symm.mem_iff.mp (List.mem_cons_of_mem _ h2)
            exact ht.chunks_wf b hb c' hc''
        · rw [getD_set_ne _ hbb] at hc'
          exact ht.chunks_wf b' hb' c' hc'
      · exact ht.leaked_wf
      · exact ht.bigs_wf
      ·
        exact ht.ranges_disj.perm hperm.symm (fun {x y} h => RDisj_symm h)
      ·
        intro x hx
        rcases ht.live_wf x (hlive' x hx) with ⟨b3, c3, i3, hb3, hc3, hi3, hbit3, hp3, hsz3, hlk3⟩ |
          ⟨g3, hg3, hpg3, hszg3, hlkg3⟩
        · by_cases hbase3 : c3.base = c.base
          · have hc3c : c3 = c := bucket_chunk_inj ht
              (mem_joinL_of_getD (by rw [ht.lists_len]; exact hb3) hc3) hmemJ hbase3
            subst hc3c
            have hb3b : b3 = b := chunk_class_unique ht hb3 hb hc3 hc
            subst hb3b
            have hi3i2 : i3 ≠ i2 := by
              intro hh
              subst hh
              exact hne' x hx (by rw [hp3, hp])
            refine Or.inl ⟨b3, { c3 with allocations := FLIP c3.allocations i2 }, i3, hb3, ?_,
              hi3, ?_, hp3, hsz3, hlk3⟩
            · rw [getD_set_self _ hblen]
              exact mem_set_self hgp _
            · rw [hbit_oth i3 (by have := slotCount_le_256 b3 hb3; omega) hi3i2]
              exact hbit3
          · have hc3ne : c3 ≠ c := fun h => hbase3 (by rw [h])
            refine Or.inl ⟨b3, c3, i3, hb3, ?_, hi3, hbit3, hp3, hsz3, hlk3⟩
            by_cases hbb : b = b3
            · subst hbb
              rw [getD_set_self _ hblen]
              exact mem_set_of_mem_ne hgp hc3 hc3ne
            · rw [getD_set_ne _ hbb]
              exact hc3
        · exact Or.inr ⟨g3, hg3, hpg3, hszg3, hlkg3⟩
      · exact hdisj'
      · exact hptr'
      · exact ht.log_nz
      · exact ht.munmap_ok
      · exact ht.page_le_next
  · -- large allocation case
    have hgwf := ht.bigs_wf g hg
    have hih : e.1 - SIZEOF_BLOCK_HEAD = g.base + SIZEOF_CHUNK_HEAD := by
      rw [hpg]; omega
    have hxf : xfree e.1 t.s = some (xbig_free g t.s) := by
      simp only [xfree]
      rw [hih, hlkg]
      simp only
      rw [find_big_some ht hg]
    refine ⟨_, hxf, ?_⟩
    have hsub : List.Sublist (chunkRanges (xbig_free g t.s)) (chunkRanges t.s) := by
      unfold chunkRanges xbig_free
      exact List.Sublist.append_left ((List.eraseP_sublist _).map bigRange) _
    constructor
    · exact ht.uninit
    · exact ht.lists_len
    · exact ht.chunks_wf
    · exact ht.leaked_wf
    ·
      intro g' hg'
      exact ht.bigs_wf g' ((List.eraseP_sublist _).subset hg')
    · exact List.Pairwise.sublist hsub ht.ranges_disj
    ·
      intro x hx
      rcases ht.live_wf x (hlive' x hx) with ⟨b3, c3, i3, hb3, hc3, hi3, hbit3, hp3, hsz3, hlk3⟩ |
        ⟨g3, hg3, hpg3, hszg3, hlkg3⟩
      · exact Or.inl ⟨b3, c3, i3, hb3, hc3, hi3, hbit3, hp3, hsz3, hlk3⟩
      · have hbase3 : g3.base ≠ g.base := by
          intro hh
          have hx1 := hne' x hx
          rw [hpg3, hpg, hh] at hx1
          exact hx1 rfl
        refine Or.inr ⟨g3, ?_, hpg3, hszg3, hlkg3⟩
        show g3 ∈ t.s.bigs.eraseP (fun c => c.base == g.base)
        exact (List.mem_eraseP_of_neg (by simpa using hbase3)).mpr hg3
    · exact hdisj'
    · exact hptr'
    · exact ht.log_nz
    ·
      intro x hx
      rcases List.mem_cons.mp hx with rfl | hold
      · exact ⟨hgwf.1, g.mapped_len, hgwf.2.2.2.1, hgwf.2.1⟩
      · exact ht.munmap_ok x hold
    · exact ht.page_le_next

/-- The initial trace state satisfies the invariant. -/
lemma initState_inv : TraceInv ⟨initState, [], []⟩ := by
  constructor
  · intro _
    rfl
  · rfl
  · intro b _ c hc
    simp only [initState] at hc
    rw [getD_replicate_nil] at hc
    cases hc
  · intro c hc
    cases hc
  · intro g hg
    cases hg
  · show (chunkRanges initState).Pairwise RDisj
    rw [show chunkRanges initState = [] from rfl]
    exact List.Pairwise.nil
  · intro e he
    cases he
  · exact List.Pairwise.nil
  · exact List.Pairwise.nil
  · intro p hp
    cases hp
  · intro e he
    cases he
  · exact Nat.le_refl _

/-- A single trace step preserves the invariant, provided an allocation
step's footprint arithmetic does not wrap. -/
lemma execOp_inv {t t' : TraceState} (ht : TraceInv t) {op : AllocOp}
    (hop : NoWrap op) (h : execOp t op = some t') : TraceInv t' := by
  cases op with
  | alloc n =>
    simp only [execOp] at h
    cases hxm : xmalloc n t.s with
    | none =>
      rw [hxm] at h
      cases h
    | some ps =>
      obtain ⟨p, s1⟩ := ps
      simp only [hxm] at h
      cases h
      exact xmalloc_inv ht hop hxm
  | free p =>
    simp only [execOp] at h
    by_cases hf : (t.live.find? (fun e => e.1 == p)).isSome = true
    · rw [if_pos hf] at h
      obtain ⟨e, hfe⟩ := Option.isSome_iff_exists.mp hf
      have he : e ∈ t.live := List.mem_of_find?_eq_some hfe
      have hep : e.1 = p := by
        have := List.find?_some hfe
        exact eq_of_beq this
      subst hep
      obtain ⟨s', hxf, hinv⟩ := xfree_inv ht he
      rw [hxf] at h
      cases h
      exact hinv
    · rw [if_neg hf] at h
      cases h

/-- Folding `execOp` over any suffix of wrap-free operations preserves the
invariant. -/
lemma foldl_exec_inv : ∀ (ops : List AllocOp) (t : TraceState), TraceInv t →
    (∀ op ∈ ops, NoWrap op) →
    ∀ t', List.foldlM execOp t ops = some t' → TraceInv t' := by
  intro ops
  induction ops with
  | nil =>
    intro t ht _ t' h
    cases h
    exact ht
  | cons op rest ih =>
    intro t ht hsmall t' h
    rw [List.foldlM_cons] at h
    cases hstep : execOp t op with
    | none =>
      rw [hstep] at h
      cases h
    | some t1 =>
      rw [hstep] at h
      exact ih t1 (execOp_inv ht (hsmall op (List.mem_cons_self _ _)) hstep)
        (fun o ho => hsmall o (List.mem_cons_of_mem _ ho)) t' h

/-- Every state reachable by executing a wrap-free trace satisfies the
invariant. -/
lemma exec_inv {ops : List AllocOp} {t : TraceState} (hsmall : ∀ op ∈ ops, NoWrap op)
    (h : exec ops = some t) : TraceInv t :=
  foldl_exec_inv ops ⟨initState, [], []⟩ initState_inv hsmall t h

/-! ### The state-only invariant

`TraceInv`'s live-set facts fail once a `size_t` footprint wraps (the
caller then holds a pointer whose requested extent exceeds its slot), but
the state-shaped facts — chunk well-formedness, range disjointness and,
in particular, the munmap log's consistency — hold on every trace.  They
are proved here as `SInv` preservation, with `BackrefWF` supplying what
`TraceInv.live_wf` supplied before: which slot grid a freed pointer's
back-reference word sits on. -/

lemma inv_forget {s : AllocState} {l : List (Nat × Nat)} {g : List Nat}
    (h : TraceInv ⟨s, l, g⟩) : TraceInv ⟨s, [], []⟩ :=
  ⟨h.uninit, h.lists_len, h.chunks_wf, h.leaked_wf, h.bigs_wf, h.ranges_disj,
   fun e he => absurd he (List.not_mem_nil e), List.Pairwise.nil, List.Pairwise.nil,
   fun q hq => absurd hq (List.not_mem_nil q), h.munmap_ok, h.page_le_next⟩

lemma slotCount_pos : ∀ b, b < 8 → 0 < slotCount b := by decide

lemma bucketSize_gt8 : ∀ b, b < 8 → SIZEOF_BLOCK_HEAD < bucketSize b := by decide

lemma assocLookup_mem {a v : Nat} : ∀ {l : List (Nat × Nat)},
    assocLookup a l = some v → (a, v) ∈ l := by
  intro l
  induction l with
  | nil => intro h; cases h
  | cons x l ih =>
    intro h
    unfold assocLookup at h
    split_ifs at h with hxa
    · obtain rfl := Option.some.inj h
      rw [← hxa]
      exact List.mem_cons_self _ _
    · exact List.mem_cons_of_mem _ (ih h)

lemma getD_get?_lt {L : List (List BucketChunk)} {b i : Nat} {c : BucketChunk}
    (h : (L.getD b []).get? i = some c) : b < L.length := by
  by_contra hge
  push_neg at hge
  rw [List.getD_eq_default _ _ hge] at h
  cases i <;> cases h

lemma findChunkIn_sound : ∀ {L : List (List BucketChunk)} {cbase : Nat} {bi : Nat × Nat},
    findChunkIn L cbase = some bi →
    ∃ c, (L.getD bi.1 []).get? bi.2 = some c ∧ c.base = cbase := by
  intro L
  induction L with
  | nil => intro cbase bi h; cases h
  | cons lst rest ih =>
    intro cbase bi h
    unfold findChunkIn at h
    cases hf : findIdxFrom (fun c => c.base == cbase) lst with
    | some i =>
      rw [hf] at h
      simp only at h
      cases h
      obtain ⟨c, hg, hp⟩ := findIdxFrom_some_elem hf
      exact ⟨c, hg, by simpa using hp⟩
    | none =>
      rw [hf] at h
      simp only at h
      cases hr : findChunkIn rest cbase with
      | none =>
        rw [hr] at h
        cases h
      | some bj =>
        rw [hr] at h
        simp only [Option.map_some'] at h
        cases h
        obtain ⟨c, hg, hb⟩ := ih hr
        exact ⟨c, hg, hb⟩

lemma BackrefWF_preserve {L L' : List (List BucketChunk)} {next next' : Nat} {e : Nat × Nat}
    (hnn : next ≤ next')
    (hsub : e.2 < next → ∀ b' c', b' < 8 → c' ∈ L'.getD b' [] → c'.base = e.2 →
      ∃ b'' c'', b'' < 8 ∧ c'' ∈ L.getD b'' [] ∧ c''.base = e.2 ∧
        c''.bucket_index = c'.bucket_index)
    (h : BackrefWF L next e) : BackrefWF L' next' e := by
  obtain ⟨hlt, hbig | ⟨b, k, hb, hk, hkey, hall⟩⟩ := h
  · exact ⟨Nat.lt_of_lt_of_le hlt hnn, Or.inl hbig⟩
  · refine ⟨Nat.lt_of_lt_of_le hlt hnn, Or.inr ⟨b, k, hb, hk, hkey, ?_⟩⟩
    intro b' c' hb' hc' hbase
    obtain ⟨b2, c2, hb2, hc2, hbase2, hbieq⟩ := hsub hlt b' c' hb' hc' hbase
    rw [← hbieq]
    exact hall b2 c2 hb2 hc2 hbase2

lemma NFFS_lt_slotCount {b : Nat} (hb : b < 8) {a : bitstring} (hv : validB a)
    (hsup : ∀ i, i < 256 → bitAt (bucketPattern b) i = true → bitAt a i = true)
    (hnef : a ≠ FILLED_STRING) :
    ∃ k, NFFS a = k + 1 ∧ k < slotCount b := by
  cases hN : NFFS a with
  | zero => exact absurd (eq_FILLED hv (NFFS_zero hN)) hnef
  | succ k =>
    obtain ⟨hk256, hbit, _⟩ := NFFS_succ hN
    refine ⟨k, rfl, ?_⟩
    by_contra hge
    push_neg at hge
    have hpat : bitAt (bucketPattern b) k = true := by
      cases hpb : bitAt (bucketPattern b) k with
      | false => exact absurd ((pattern_bits b hb k hk256).mp hpb) (by omega)
      | true => rfl
    rw [hsup k hk256 hpat] at hbit
    cases hbit

/-- Carving a slot (the bucket arm of `xmalloc`) preserves the state-only
invariant, with no condition on the request size. -/
lemma carve_sinv {s : AllocState} (hs : SInv s) {bn i : Nat} {c : BucketChunk}
    (hbn : bn < 8)
    (hget : (s.lists.getD bn []).get? i = some c)
    (hnef : c.allocations ≠ FILLED_STRING) :
    SInv { s with
        lists := s.lists.set bn ((s.lists.getD bn []).set i
          { c with allocations := FLIP c.allocations (NFFS c.allocations - 1) })
        backrefs := (c.base + SIZEOF_BUCKET_HEAD + (NFFS c.allocations - 1) * bucketSize bn,
          c.base) :: s.backrefs } := by
  have hlen8 : s.lists.length = 8 := hs.base.lists_len
  have hblen : bn < s.lists.length := by rw [hlen8]; exact hbn
  have hcm : c ∈ s.lists.getD bn [] := List.get?_mem hget
  have hwfc := hs.base.chunks_wf bn hbn c hcm
  have hbi : c.bucket_index = bn := hwfc.1
  have hrange := hwfc.2.2.2.2.1
  obtain ⟨k, hN, hk⟩ := NFFS_lt_slotCount hbn hwfc.2.2.1 hwfc.2.2.2.1 hnef
  have hbase : @TraceInv ⟨{ s with
      lists := s.lists.set bn ((s.lists.getD bn []).set i
        { c with allocations := FLIP c.allocations (NFFS c.allocations - 1) })
      backrefs := (c.base + SIZEOF_BUCKET_HEAD + (NFFS c.allocations - 1) * bucketSize bn,
        c.base) :: s.backrefs }, [], []⟩ :=
    inv_forget (carve_inv (t := ⟨s, [], []⟩) hs.base hbn hget hnef
      (show 0 + SIZEOF_BLOCK_HEAD < bucketSize bn by
        have := bucketSize_gt8 bn hbn
        omega))
  refine ⟨hbase, ?_⟩
  intro e he
  rcases List.mem_cons.mp he with rfl | hold
  · -- the freshly written back-reference word
    refine ⟨?_, Or.inr ⟨bn, NFFS c.allocations - 1, hbn, ?_, rfl, ?_⟩⟩
    · have h1 : c.base + c.chunk_size ≤ s.next_addr := hrange.2.1
      have h2 : 0 < c.chunk_size := hrange.2.2
      show c.base < s.next_addr
      omega
    · rw [hN]
      exact hk
    · intro b' c2 hb' hc2 hbase2
      by_cases hbb : bn = b'
      · subst hbb
        rw [getD_set_self _ hblen] at hc2
        have hq := (set_perm_cons_eraseIdx hget
          { c with allocations := FLIP c.allocations (NFFS c.allocations - 1) }).mem_iff.mp hc2
        rcases List.mem_cons.mp hq with h1 | h2
        · rw [h1]
          exact hbi
        · have hc2old : c2 ∈ s.lists.getD bn [] :=
            (perm_cons_eraseIdx hget).symm.mem_iff.mp (List.mem_cons_of_mem _ h2)
          have hc2c : c2 = c := bucket_chunk_inj hs.base
            (mem_joinL_of_getD hblen hc2old) (mem_joinL_of_getD hblen hcm) hbase2
          rw [hc2c]
          exact hbi
      · rw [getD_set_ne _ hbb] at hc2
        have hblen' : b' < s.lists.length := by rw [hlen8]; exact hb'
        have hc2c : c2 = c := bucket_chunk_inj hs.base
          (mem_joinL_of_getD hblen' hc2) (mem_joinL_of_getD hblen hcm) hbase2
        rw [hc2c]
        exact hbi
  · -- a back-reference written earlier
    refine BackrefWF_preserve (Nat.le_refl _) ?_ (hs.brefs e hold)
    intro _ b' c2 hb' hc2 hbase2
    by_cases hbb : bn = b'
    · subst hbb
      rw [getD_set_self _ hblen] at hc2
      have hq := (set_perm_cons_eraseIdx hget
        { c with allocations := FLIP c.allocations (NFFS c.allocations - 1) }).mem_iff.mp hc2
      rcases List.mem_cons.mp hq with h1 | h2
      · refine ⟨bn, c, hbn, hcm, ?_, ?_⟩
        · rw [h1] at hbase2
          exact hbase2
        · rw [h1]
      · exact ⟨bn, c2, hb',
          (perm_cons_eraseIdx hget).symm.mem_iff.mp (List.mem_cons_of_mem _ h2), hbase2, rfl⟩
    · rw [getD_set_ne _ hbb] at hc2
      exact ⟨b', c2, hb', hc2, hbase2, rfl⟩

/-- Mapping a fresh bucket chunk preserves the state-only invariant. -/
lemma alloc_bucket_sinv {s : AllocState} (hs : SInv s) {bn : Nat} (hbn : bn < 8)
    (hinit : s.inited = true) : SInv (allocate_bucket bn s) := by
  have hblen : bn < s.lists.length := by rw [hs.base.lists_len]; exact hbn
  refine ⟨bucket_chunk_alloc_inv (t := ⟨s, [], []⟩) hs.base hbn hinit, ?_⟩
  rw [allocate_bucket_eq]
  intro e he
  refine BackrefWF_preserve (Nat.le_add_right _ _) ?_ (hs.brefs e he)
  intro hlt b' c2 hb' hc2 hbase2
  by_cases hbb : bn = b'
  · subst hbb
    rw [getD_set_self _ hblen] at hc2
    rcases List.mem_cons.mp hc2 with h1 | h2
    · exfalso
      rw [h1] at hbase2
      have hb2 : s.next_addr = e.2 := hbase2
      omega
    · exact ⟨bn, c2, hb', h2, hbase2, rfl⟩
  · rw [getD_set_ne _ hbb] at hc2
    exact ⟨b', c2, hb', hc2, hbase2, rfl⟩
/-- A successful large allocation preserves the state-only invariant, for
every size (wrapped or not): the recorded chunk size is whatever
`big_alloc_size` wrapped to, which the guard keeps positive. -/
lemma big_alloc_sinv {s : AllocState} (hs : SInv s) {size : Nat} {ps : Nat × AllocState}
    (hx : xbig_malloc size s = some ps) : SInv ps.2 := by
  by_cases hp : pages_needed ((size + SIZEOF_CHUNK_HEAD) % 2 ^ 64) = 0
  · rw [show xbig_malloc size s = none from by simp only [xbig_malloc]; rw [if_pos hp]] at hx
    cases hx
  · rw [xbig_malloc_eq _ _ hp] at hx
    obtain rfl := (Option.some.inj hx).symm
    dsimp only
    have hba0 : 0 < (size + SIZEOF_CHUNK_HEAD) % 2 ^ 64 := by
      by_contra h0
      push_neg at h0
      exact hp (by rw [Nat.le_zero.mp h0]; rfl)
    have hple : PAGE_SIZE ≤ s.next_addr := hs.base.page_le_next
    have hclen : (size + SIZEOF_CHUNK_HEAD) % 2 ^ 64 ≤
        pages_needed ((size + SIZEOF_CHUNK_HEAD) % 2 ^ 64) * PAGE_SIZE := pages_needed_ge _
    have hpg : PAGE_SIZE ≤ pages_needed ((size + SIZEOF_CHUNK_HEAD) % 2 ^ 64) * PAGE_SIZE :=
      pages_needed_ge_page hba0
    have hppos : 0 < pages_needed ((size + SIZEOF_CHUNK_HEAD) % 2 ^ 64) * PAGE_SIZE :=
      Nat.lt_of_lt_of_le (by decide) hpg
    have hmono : ∀ e ∈ s.mapped,
        e ∈ (s.next_addr, pages_needed ((size + SIZEOF_CHUNK_HEAD) % 2 ^ 64) * PAGE_SIZE)
          :: s.mapped := fun e he => List.mem_cons_of_mem _ he
    have hnn : s.next_addr ≤ s.next_addr +
        pages_needed ((size + SIZEOF_CHUNK_HEAD) % 2 ^ 64) * PAGE_SIZE := by omega
    refine ⟨?_, ?_⟩
    · constructor
      · intro h
        exact hs.base.uninit h
      · exact hs.base.lists_len
      · intro b hb c hc
        exact BucketWF_mono hnn hmono (hs.base.chunks_wf b hb c hc)
      · intro c hc
        exact RangeWF_mono hnn (hs.base.leaked_wf c hc)
      · intro g hg
        rcases List.mem_cons.mp hg with rfl | hold
        · exact ⟨hba0, hclen, ⟨hple, le_refl _, hppos⟩, List.mem_cons_self _ _, hpg⟩
        · exact BigWF_mono hnn hmono (hs.base.bigs_wf g hold)
      · have hperm : List.Perm
            (((joinL s.lists).map bucketRange ++ s.leaked.map bucketRange) ++
              (((s.next_addr,
                  pages_needed ((size + SIZEOF_CHUNK_HEAD) % 2 ^ 64) * PAGE_SIZE) : Nat × Nat)
                :: s.bigs.map bigRange))
            (((s.next_addr,
                pages_needed ((size + SIZEOF_CHUNK_HEAD) % 2 ^ 64) * PAGE_SIZE) : Nat × Nat)
              :: chunkRanges s) := by
          unfold chunkRanges
          exact List.perm_middle
        have hcons : ((((s.next_addr,
            pages_needed ((size + SIZEOF_CHUNK_HEAD) % 2 ^ 64) * PAGE_SIZE)) : Nat × Nat)
              :: chunkRanges s).Pairwise RDisj := by
          refine List.pairwise_cons.mpr ⟨fun r hr => ?_, hs.base.ranges_disj⟩
          have hw := ranges_wf_of_inv hs.base r hr
          have h1 : r.1 + r.2 ≤ s.next_addr := hw.2.1
          exact Or.inr h1
        exact hcons.perm hperm.symm (fun {x y} h => RDisj_symm h)
      · intro e he
        cases he
      · exact List.Pairwise.nil
      · exact List.Pairwise.nil
      · intro q hq
        cases hq
      · intro e he
        exact MunmapWF_mono hmono (hs.base.munmap_ok e he)
      · show PAGE_SIZE ≤ s.next_addr +
          pages_needed ((size + SIZEOF_CHUNK_HEAD) % 2 ^ 64) * PAGE_SIZE
        omega
    · intro e he
      rcases List.mem_cons.mp he with rfl | hold
      · refine ⟨?_, Or.inl rfl⟩
        show s.next_addr < s.next_addr +
          pages_needed ((size + SIZEOF_CHUNK_HEAD) % 2 ^ 64) * PAGE_SIZE
        omega
      · exact BackrefWF_preserve hnn
          (fun _ b' c' hb' hc' hbase => ⟨b', c', hb', hc', hbase, rfl⟩)
          (hs.brefs e hold)

/-- Every successful allocation preserves the state-only invariant, for
every request size. -/
lemma xmalloc_sinv {s : AllocState} (hs : SInv s) {n : Nat} {ps : Nat × AllocState}
    (hx : xmalloc n s = some ps) : SInv ps.2 := by
  have hie : init_lists s = { s with inited := true } := init_lists_eq hs.base.uninit
  have hsi : SInv (init_lists s) := by
    rw [hie]
    exact ⟨inv_set_inited hs.base, hs.brefs⟩
  have hinit1 : (init_lists s).inited = true := by rw [hie]
  simp only [xmalloc] at hx
  rcases get_bucket_cases ((n + SIZEOF_BLOCK_HEAD) % 2 ^ 64) with hgb | ⟨b, hgb, hb8, hlt⟩
  · rw [hgb, if_pos rfl] at hx
    exact big_alloc_sinv hsi hx
  · have hne1 : ¬(get_bucket ((n + SIZEOF_BLOCK_HEAD) % 2 ^ 64) = -1) := by
      rw [hgb]
      intro h
      have h2 : (0 : Int) ≤ Int.ofNat b := Int.ofNat_nonneg b
      rw [h] at h2
      exact absurd h2 (by decide)
    rw [hgb, if_neg (by rw [← hgb]; exact hne1)] at hx
    rw [show (Int.ofNat b).toNat = b from rfl] at hx
    simp only [find_free_bucket_space] at hx
    cases hfind : findIdxFrom (fun c => ! EQUAL c.allocations FILLED_STRING)
        ((init_lists s).lists.getD b []) with
    | some i =>
      obtain ⟨c, hgetc, hpredc⟩ := findIdxFrom_some_elem hfind
      have hnef : c.allocations ≠ FILLED_STRING := by
        rw [Bool.not_eq_true'] at hpredc
        exact EQUAL_false_iff.mp hpredc
      rw [hfind] at hx
      simp only at hx
      rw [hgetc] at hx
      simp only at hx
      obtain rfl := (Option.some.inj hx).symm
      exact carve_sinv hsi hb8 hgetc hnef
    | none =>
      have hblen1 : b < (init_lists s).lists.length := by
        rw [hsi.base.lists_len]
        exact hb8
      have hget0 : ((allocate_bucket b (init_lists s)).lists.getD b []).get? 0 =
          some ⟨(init_lists s).next_addr, b, bucketPages b * PAGE_SIZE, bucketPattern b⟩ := by
        rw [allocate_bucket_eq]
        simp only
        rw [getD_set_self _ hblen1]
        rfl
      have hnef : (⟨(init_lists s).next_addr, b, bucketPages b * PAGE_SIZE,
          bucketPattern b⟩ : BucketChunk).allocations ≠ FILLED_STRING :=
        pattern_ne_FILLED b hb8
      rw [hfind] at hx
      simp only at hx
      rw [hget0] at hx
      simp only at hx
      obtain rfl := (Option.some.inj hx).symm
      exact carve_sinv (alloc_bucket_sinv hsi hb8 hinit1) hb8 hget0 hnef

/-- Every successful free preserves the state-only invariant, for every
pointer: success means the back-reference word read back an address this
allocator wrote, and `BackrefWF` pins the slot index the surgery uses. -/
lemma xfree_sinv {s : AllocState} (hs : SInv s) {p : Nat} {s2 : AllocState}
    (hx : xfree p s = some s2) : SInv s2 := by
  simp only [xfree] at hx
  cases hlzk : assocLookup (p - SIZEOF_BLOCK_HEAD) s.backrefs with
  | none =>
    rw [hlzk] at hx
    cases hx
  | some cbase =>
  rw [hlzk] at hx
  simp only at hx
  have hbr : (p - SIZEOF_BLOCK_HEAD, cbase) ∈ s.backrefs := assocLookup_mem hlzk
  obtain ⟨hcb_lt, hdisj⟩ := hs.brefs _ hbr
  cases hfb : s.bigs.find? (fun c => c.base == cbase) with
  | some g =>
    rw [hfb] at hx
    simp only at hx
    obtain rfl := (Option.some.inj hx).symm
    have hg : g ∈ s.bigs := List.mem_of_find?_eq_some hfb
    have hbw := hs.base.bigs_wf g hg
    refine ⟨?_, hs.brefs⟩
    constructor
    · exact hs.base.uninit
    · exact hs.base.lists_len
    · exact hs.base.chunks_wf
    · exact hs.base.leaked_wf
    · intro g' hg'
      exact hs.base.bigs_wf g' ((List.eraseP_sublist _).subset hg')
    · refine List.Pairwise.sublist ?_ hs.base.ranges_disj
      unfold chunkRanges xbig_free
      exact List.Sublist.append_left ((List.eraseP_sublist _).map bigRange) _
    · intro e he
      cases he
    · exact List.Pairwise.nil
    · exact List.Pairwise.nil
    · intro q hq
      cases hq
    · intro e he
      rcases List.mem_cons.mp he with rfl | hold
      · exact ⟨hbw.1, g.mapped_len, hbw.2.2.2.1, hbw.2.1⟩
      · exact hs.base.munmap_ok e hold
    · exact hs.base.page_le_next
  | none =>
  rw [hfb] at hx
  simp only at hx
  cases hfc : findChunkIn s.lists cbase with
  | none =>
    rw [hfc] at hx
    cases hx
  | some bi =>
  obtain ⟨b, i⟩ := bi
  rw [hfc] at hx
  simp only at hx
  cases hgc : (s.lists.getD b []).get? i with
  | none =>
    rw [hgc] at hx
    cases hx
  | some c =>
  rw [hgc] at hx
  simp only at hx
  obtain ⟨c0, hg0, hb0⟩ := findChunkIn_sound hfc
  have hceq : c0 = c := Option.some.inj (hg0.symm.trans hgc)
  have hcb : c.base = cbase := by
    rw [← hceq]
    exact hb0
  have hlen8 : s.lists.length = 8 := hs.base.lists_len
  have hblen : b < s.lists.length := getD_get?_lt hgc
  have hb8 : b < 8 := by rw [hlen8] at hblen; exact hblen
  have hcm : c ∈ s.lists.getD b [] := List.get?_mem hgc
  have hwfc := hs.base.chunks_wf b hb8 c hcm
  have hbi : c.bucket_index = b := hwfc.1
  have hcs : c.chunk_size = bucketPages b * PAGE_SIZE := hwfc.2.1
  have hv : validB c.allocations := hwfc.2.2.1
  have hsup := hwfc.2.2.2.1
  have hrange := hwfc.2.2.2.2.1
  have hss : 0 < bucketSize b := bucketSize_pos b hb8
  have hidx : ∃ j, (p - SIZEOF_BLOCK_HEAD - (cbase + SIZEOF_BUCKET_HEAD)) / bucketSize b = j ∧
      j < slotCount b := by
    rcases hdisj with hkey | ⟨b0, k, hb08, hk, hkey, hall⟩
    · refine ⟨0, ?_, slotCount_pos b hb8⟩
      have hkey' : p - SIZEOF_BLOCK_HEAD = cbase + SIZEOF_CHUNK_HEAD := hkey
      have h0 : p - SIZEOF_BLOCK_HEAD - (cbase + SIZEOF_BUCKET_HEAD) = 0 := by
        rw [hkey', show SIZEOF_CHUNK_HEAD = 16 from rfl, show SIZEOF_BUCKET_HEAD = 64 from rfl]
        omega
      rw [h0, Nat.zero_div]
    · have hb0b : b0 = b := by
        have h1 : c.bucket_index = b0 := hall b c hb8 hcm hcb
        rw [← h1, hbi]
      subst hb0b
      have hkey' : p - SIZEOF_BLOCK_HEAD = cbase + SIZEOF_BUCKET_HEAD + k * bucketSize b0 :=
        hkey
      refine ⟨k, ?_, hk⟩
      rw [hkey', show cbase + SIZEOF_BUCKET_HEAD + k * bucketSize b0
        - (cbase + SIZEOF_BUCKET_HEAD) = k * bucketSize b0 from by omega]
      exact Nat.mul_div_cancel k hss
  obtain ⟨j, hjdiv, hj⟩ := hidx
  have hj256 : j < 256 := Nat.lt_of_lt_of_le hj (slotCount_le_256 b hb8)
  have hmv : validB (FLIP c.allocations j) := validB_FLIP hv hj256
  have hbit_oth : ∀ i2, i2 < 256 → i2 ≠ j →
      bitAt (FLIP c.allocations j) i2 = bitAt c.allocations i2 := by
    intro i2 h2 hne
    rw [bitAt_FLIP hj256 h2, if_neg hne]
  have hsup' : ∀ i2, i2 < 256 → bitAt (bucketPattern b) i2 = true →
      bitAt (FLIP c.allocations j) i2 = true := by
    intro i2 h2 hpat
    have hne : i2 ≠ j := by
      intro hh
      subst hh
      rw [(pattern_bits b hb8 i2 h2).mpr hj] at hpat
      cases hpat
    rw [hbit_oth i2 h2 hne]
    exact hsup i2 h2 hpat
  rw [hbi, hjdiv] at hx
  by_cases hEq : EQUAL (FLIP c.allocations j) (bucketPattern b) = true
  · rw [if_pos hEq] at hx
    obtain rfl := (Option.some.inj hx).symm
    refine ⟨?_, ?_⟩
    · constructor
      · intro h
        have h2 : s.lists = List.replicate 8 [] := hs.base.uninit h
        rw [h2, getD_replicate_nil] at hcm
        cases hcm
      · show (s.lists.set b _).length = 8
        rw [List.length_set]
        exact hlen8
      · intro b' hb' c' hc'
        by_cases hbb : b = b'
        · subst hbb
          rw [getD_set_self _ hblen] at hc'
          exact hs.base.chunks_wf b hb8 c' ((List.eraseIdx_sublist _ i).subset hc')
        · rw [getD_set_ne _ hbb] at hc'
          exact hs.base.chunks_wf b' hb' c' hc'
      · intro c' hc'
        rcases List.mem_cons.mp hc' with rfl | hold
        · exact hrange
        · exact hs.base.leaked_wf c' hold
      · exact hs.base.bigs_wf
      · have hperm1 : List.Perm
            ((joinL (s.lists.set b ((s.lists.getD b []).eraseIdx i))).map bucketRange)
            (((s.lists.getD b []).eraseIdx i).map bucketRange
              ++ (joinL (s.lists.set b [])).map bucketRange) := by
          have h0 := (joinL_set_perm ((s.lists.getD b []).eraseIdx i) hblen).map bucketRange
          rw [List.map_append] at h0
          exact h0
        have hperm2 : List.Perm ((s.lists.getD b []).map bucketRange)
            (bucketRange c :: ((s.lists.getD b []).eraseIdx i).map bucketRange) := by
          have h0 := (perm_cons_eraseIdx hgc).map bucketRange
          rw [List.map_cons] at h0
          exact h0
        have holdp : List.Perm (chunkRanges s)
            ((bucketRange c :: (((s.lists.getD b []).eraseIdx i).map bucketRange
              ++ (joinL (s.lists.set b [])).map bucketRange))
              ++ s.leaked.map bucketRange ++ s.bigs.map bigRange) := by
          have hA : List.Perm ((joinL s.lists).map bucketRange)
              (bucketRange c :: (((s.lists.getD b []).eraseIdx i).map bucketRange
                ++ (joinL (s.lists.set b [])).map bucketRange)) := by
            have h0 := (joinL_getD_perm hblen).map bucketRange
            rw [List.map_append] at h0
            exact h0.trans (hperm2.append_right _)
          exact (hA.append_right _).append_right _
        have hnew : List.Perm
            (chunkRanges { s with
              lists := s.lists.set b ((s.lists.getD b []).eraseIdx i)
              leaked := (⟨c.base, b, c.chunk_size, FLIP c.allocations j⟩ : BucketChunk) :: s.leaked })
            ((bucketRange c :: (((s.lists.getD b []).eraseIdx i).map bucketRange
              ++ (joinL (s.lists.set b [])).map bucketRange))
              ++ s.leaked.map bucketRange ++ s.bigs.map bigRange) := by
          have hstep : List.Perm
              ((((s.lists.getD b []).eraseIdx i).map bucketRange
                ++ (joinL (s.lists.set b [])).map bucketRange)
                ++ (bucketRange c :: s.leaked.map bucketRange))
              ((bucketRange c :: (((s.lists.getD b []).eraseIdx i).map bucketRange
                ++ (joinL (s.lists.set b [])).map bucketRange))
                ++ s.leaked.map bucketRange) := List.perm_middle
          have h0 := (hperm1.append_right
            (bucketRange c :: s.leaked.map bucketRange)).trans hstep
          exact h0.append_right _
        exact ((hs.base.ranges_disj.perm holdp (fun {x y} h => RDisj_symm h)).perm hnew.symm
          (fun {x y} h => RDisj_symm h))
      · intro e he
        cases he
      · exact List.Pairwise.nil
      · exact List.Pairwise.nil
      · intro q hq
        cases hq
      · exact hs.base.munmap_ok
      · exact hs.base.page_le_next
    · intro e he
      refine BackrefWF_preserve (Nat.le_refl _) ?_ (hs.brefs e he)
      intro _ b' c2 hb' hc2 hbase2
      by_cases hbb : b = b'
      · subst hbb
        rw [getD_set_self _ hblen] at hc2
        exact ⟨b, c2, hb', (List.eraseIdx_sublist _ i).subset hc2, hbase2, rfl⟩
      · rw [getD_set_ne _ hbb] at hc2
        exact ⟨b', c2, hb', hc2, hbase2, rfl⟩
  · have hEqF : EQUAL (FLIP c.allocations j) (bucketPattern b) = false := by
      cases h : EQUAL (FLIP c.allocations j) (bucketPattern b) with
      | false => rfl
      | true => exact absurd h hEq
    rw [if_neg (by rw [hEqF]; exact Bool.noConfusion)] at hx
    obtain rfl := (Option.some.inj hx).symm
    have hmapset : (((s.lists.getD b []).set i
        (⟨c.base, b, c.chunk_size, FLIP c.allocations j⟩ : BucketChunk)).map bucketRange) =
        ((s.lists.getD b []).map bucketRange) := by
      rw [List.map_set]
      apply set_get?_self
      rw [List.get?_map, hgc]
      rfl
    have hperm : List.Perm
        (chunkRanges { s with
          lists := s.lists.set b ((s.lists.getD b []).set i
            (⟨c.base, b, c.chunk_size, FLIP c.allocations j⟩ : BucketChunk)) })
        (chunkRanges s) := by
      have hjp := (joinL_set_perm ((s.lists.getD b []).set i
        (⟨c.base, b, c.chunk_size, FLIP c.allocations j⟩ : BucketChunk)) hblen).map bucketRange
      rw [List.map_append, hmapset] at hjp
      have hjb := ((joinL_getD_perm hblen).symm).map bucketRange
      rw [List.map_append] at hjb
      exact (((hjp.trans hjb)).append_right _).append_right _
    refine ⟨?_, ?_⟩
    · constructor
      · intro h
        have h2 : s.lists = List.replicate 8 [] := hs.base.uninit h
        rw [h2, getD_replicate_nil] at hcm
        cases hcm
      · show (s.lists.set b _).length = 8
        rw [List.length_set]
        exact hlen8
      · intro b' hb' c' hc'
        by_cases hbb : b = b'
        · subst hbb
          rw [getD_set_self _ hblen] at hc'
          by_cases hcc : c' = (⟨c.base, b, c.chunk_size, FLIP c.allocations j⟩ : BucketChunk)
          · subst hcc
            exact ⟨rfl, hcs, hmv, hsup', hrange, hwfc.2.2.2.2.2⟩
          · have hc'' : c' ∈ s.lists.getD b [] := by
              have hq := (set_perm_cons_eraseIdx hgc
                (⟨c.base, b, c.chunk_size, FLIP c.allocations j⟩ : BucketChunk)).mem_iff.mp hc'
              rcases List.mem_cons.mp hq with h1 | h2
              · exact absurd h1 hcc
              · exact (perm_cons_eraseIdx hgc).symm.mem_iff.mp (List.mem_cons_of_mem _ h2)
            exact hs.base.chunks_wf b hb8 c' hc''
        · rw [getD_set_ne _ hbb] at hc'
          exact hs.base.chunks_wf b' hb' c' hc'
      · exact hs.base.leaked_wf
      · exact hs.base.bigs_wf
      · exact hs.base.ranges_disj.perm hperm.symm (fun {x y} h => RDisj_symm h)
      · intro e he
        cases he
      · exact List.Pairwise.nil
      · exact List.Pairwise.nil
      · intro q hq
        cases hq
      · exact hs.base.munmap_ok
      · exact hs.base.page_le_next
    · intro e he
      refine BackrefWF_preserve (Nat.le_refl _) ?_ (hs.brefs e he)
      intro _ b' c2 hb' hc2 hbase2
      by_cases hbb : b = b'
      · subst hbb
        rw [getD_set_self _ hblen] at hc2
        have hq := (set_perm_cons_eraseIdx hgc
          (⟨c.base, b, c.chunk_size, FLIP c.allocations j⟩ : BucketChunk)).mem_iff.mp hc2
        rcases List.mem_cons.mp hq with h1 | h2
        · refine ⟨b, c, hb', hcm, ?_, ?_⟩
          · rw [h1] at hbase2
            exact hbase2
          · rw [h1]
            exact hbi
        · exact ⟨b, c2, hb',
            (perm_cons_eraseIdx hgc).symm.mem_iff.mp (List.mem_cons_of_mem _ h2), hbase2, rfl⟩
      · rw [getD_set_ne _ hbb] at hc2
        exact ⟨b', c2, hb', hc2, hbase2, rfl⟩

lemma init_sinv : SInv initState :=
  ⟨initState_inv, fun e he => absurd he (List.not_mem_nil e)⟩

/-- A single trace step preserves the state-only invariant, for every
operation. -/
lemma execOp_sinv {t t' : TraceState} (hs : SInv t.s) {op : AllocOp}
    (h : execOp t op = some t') : SInv t'.s := by
  cases op with
  | alloc n =>
    simp only [execOp] at h
    cases hxm : xmalloc n t.s with
    | none =>
      rw [hxm] at h
      cases h
    | some ps =>
      obtain ⟨q, s1⟩ := ps
      simp only [hxm] at h
      cases h
      exact xmalloc_sinv hs hxm
  | free q =>
    simp only [execOp] at h
    by_cases hf : (t.live.find? (fun e => e.1 == q)).isSome = true
    · rw [if_pos hf] at h
      cases hxf : xfree q t.s with
      | none =>
        rw [hxf] at h
        cases h
      | some s1 =>
        simp only [hxf] at h
        cases h
        exact xfree_sinv hs hxf
    · rw [if_neg hf] at h
      cases h

lemma foldl_exec_sinv : ∀ (ops : List AllocOp) (t : TraceState), SInv t.s →
    ∀ t', List.foldlM execOp t ops = some t' → SInv t'.s := by
  intro ops
  induction ops with
  | nil =>
    intro t hs t' h
    cases h
    exact hs
  | cons op rest ih =>
    intro t hs t' h
    rw [List.foldlM_cons] at h
    cases hstep : execOp t op with
    | none =>
      rw [hstep] at h
      cases h
    | some t1 =>
      rw [hstep] at h
      exact ih t1 (execOp_sinv hs hstep) t' h

/-- Every state reachable by executing any trace — wrap-free or not —
satisfies the state-only invariant. -/
lemma exec_sinv {ops : List AllocOp} {t : TraceState} (h : exec ops = some t) :
    SInv t.s := foldl_exec_sinv ops ⟨initState, [], []⟩ init_sinv t h

/-! ### The spec's claims -/

/-- Claim C1 (refuted): the spec's `reallocate` contract fails.  The code's
`xrealloc` is a stub that always returns the nil pointer and changes no
state, whereas `reallocate(nil, 16)` ought to behave as `allocate(16)`,
which returns the non-nil pointer 4168 from the start state. -/
theorem C1_realloc_stub_counterexample :
    xrealloc 0 16 initState = (0, initState) ∧
    (xmalloc 16 initState).map Prod.fst = some 4168 ∧ (4168 : Nat) ≠ 0 := by decide

/-- Claim C2 (refuted): the dispatch layer does not serve a footprint equal
to a class's slot size from that class.  `get_bucket` compares with strict
`<`, so footprint 24 (equal to `slot_size[0] = 24`) lands in class 1, and
footprint 4104 (equal to `slot_size[7] = 4104`) falls through to the
large-allocation path — `allocate(4096)` produces a big chunk. -/
theorem C2_size_class_boundary_counterexample :
    bucketSize 0 = 24 ∧ get_bucket 24 = Int.ofNat 1 ∧
    get_bucket 23 = Int.ofNat 0 ∧
    bucketSize 7 = 4104 ∧ get_bucket 4104 = -1 ∧
    (exec [AllocOp.alloc 4096]).map (fun t => t.s.bigs.length) = some 1 := by decide

/-- Claim C3 (refuted): `free(nil)` is not a no-op.  The code has no nil
check: it dereferences the back-reference word at `nil - sizeof(block_head)`,
an address this allocator never wrote, which the model renders as the
undefined-behavior result `none` (rather than `some` of the unchanged
state) both at program start and in a state with a live allocation. -/
theorem C3_free_nil_counterexample :
    xfree 0 initState = none ∧ xfree 0 (init_lists initState) = none ∧
    xfree 0 t3.s = none := by decide

set_option synthInstance.maxSize 1000 in
/-- Claim C4 (refuted): emptying a bucketed chunk unlinks it but never
returns its mapping to the OS.  After `allocate(16)` and the matching
free, the live set and every class list are empty, yet no `munmap` was
issued: the chunk sits on the ghost `leaked` list and its page is still
mapped. -/
theorem C4_empty_chunk_not_released :
    (exec [AllocOp.alloc 16, AllocOp.free 4168]).map
      (fun t => (t.live, t.s.lists, t.s.munmap_log, t.s.leaked.length, t.s.mapped)) =
    some ([], List.replicate 8 [], [], 1, [(4096, 4096)]) := by decide

/-- Claim C6 (original, refuted): `unmap` is not always called with the
nbytes used at map time, nor with a positive multiple of the page size.
Freeing the large allocation of `allocate(4096)` munmaps with the header's
stored `chunk_size` 4120 = 4096 + 8 + 16, while the region was mapped with
8192 bytes; 4120 is neither 8192 nor page-aligned. -/
theorem C6_munmap_size_counterexample :
    (exec [AllocOp.alloc 4096, AllocOp.free 4120]).map
      (fun t => (t.s.munmap_log, t.s.mapped)) =
    some ([(4096, 4120)], [(4096, 8192)]) ∧
    4120 % PAGE_SIZE ≠ 0 ∧ (4120 : Nat) ≠ 8192 := by decide

/-- Claim C6 (amended): in every reachable state, every `munmap` call was
made with a positive length, on a base address that was indeed mapped, and
with a length at most the length mapped at that base — but not necessarily
equal to it. -/
theorem C6_munmap_amended {ops : List AllocOp} {t : TraceState}
    (h : exec ops = some t) :
    ∀ e ∈ t.s.munmap_log, MunmapWF t.s.mapped e :=
  (exec_sinv h).base.munmap_ok

theorem C6_munmap_amended_witness :
    (4096, 4120) ∈ t6.s.munmap_log ∧ MunmapWF t6.s.mapped (4096, 4120) :=
  ⟨by decide,
   @C6_munmap_amended [AllocOp.alloc 4096, AllocOp.free 4120] t6 (by decide)
     (4096, 4120) (by decide)⟩

/-- Claim C7 (original, refuted): under faithful 64-bit `size_t`
arithmetic, the footprint of `allocate(2^64 - 1)` wraps to 7 and the
request is served from a 24-byte class-0 slot at 4168, so the caller's
requested usable range of 2^64 - 1 bytes overlaps the next allocation at
8264: the live ranges are not pairwise disjoint. -/
theorem C7_wrap_overlap_counterexample :
    (exec [AllocOp.alloc 18446744073709551615, AllocOp.alloc 16]).map (fun t => t.live) =
      some [(8264, 16), (4168, 18446744073709551615)] ∧
    ¬ UDisj (4168, 18446744073709551615) (8264, 16) := by
  refine ⟨by decide, ?_⟩
  intro h
  simp only [UDisj] at h
  omega

/-- Claim C7 (amended): after any sequence of allocate/free operations in
which every free hits a live pointer (the discipline `exec` enforces) and
no allocation's footprint arithmetic wraps the 64-bit size, allocation
never returned the nil pointer, and the usable byte ranges of the
currently live pointers are pairwise disjoint. -/
theorem C7_alloc_nonnil_live_disjoint {ops : List AllocOp} {t : TraceState}
    (hsmall : ∀ op ∈ ops, NoWrap op) (h : exec ops = some t) :
    (∀ p ∈ t.log, p ≠ 0) ∧ t.live.Pairwise UDisj :=
  ⟨(exec_inv hsmall h).log_nz, (exec_inv hsmall h).live_disj⟩

theorem C7_alloc_nonnil_live_disjoint_witness :
    (∀ p ∈ t7.log, p ≠ 0) ∧ t7.live.Pairwise UDisj :=
  @C7_alloc_nonnil_live_disjoint [AllocOp.alloc 16, AllocOp.alloc 4096] t7
    (by decide) (by decide)

/-- Claim C8 (confirmed): for each of the eight hard-coded classes, the
number of free bits of the initial occupancy pattern (the slot count)
times the slot size, plus the 64-byte chunk header, fits within the
class's configured number of 4096-byte pages. -/
theorem C8_class_table_fits :
    ∀ b, b < 8 → zeroCount (bucketPattern b) * bucketSize b + SIZEOF_BUCKET_HEAD ≤
      bucketPages b * PAGE_SIZE := by decide

theorem C8_class_table_fits_witness :
    zeroCount (bucketPattern 4) * bucketSize 4 + SIZEOF_BUCKET_HEAD ≤
      bucketPages 4 * PAGE_SIZE :=
  C8_class_table_fits 4 (by decide)

lemma bucketSize_le_4104 : ∀ b, b < 8 → bucketSize b ≤ 4104 := by decide

/-- Claim C9 (confirmed): when allocate carves a slot out of the chunk the
class-list walk selected, the slot index `k` (from `NFFS = k + 1`) is the
lowest 0-bit of the occupancy map in the word-by-word scan order, exactly
that bit is set afterwards, the slot sits at
`chunk base + header + k * slot_size`, the slot's back-reference word is
written with the chunk's address, and the returned pointer is the byte
after the back-reference. -/
theorem C9_bucket_carve (bytes : Nat) (s : AllocState) (b i k : Nat) (c : BucketChunk)
    (hinit : s.inited = true)
    (hgb : get_bucket (bytes + SIZEOF_BLOCK_HEAD) = Int.ofNat b)
    (hfind : findIdxFrom (fun c => ! EQUAL c.allocations FILLED_STRING)
      (s.lists.getD b []) = some i)
    (hget : (s.lists.getD b []).get? i = some c)
    (hNFFS : NFFS c.allocations = k + 1) :
    (bitAt c.allocations k = false ∧ ∀ j, j < k → bitAt c.allocations j = true) ∧
    bitAt (FLIP c.allocations k) k = true ∧
    (∀ j, j < 256 → j ≠ k → bitAt (FLIP c.allocations k) j = bitAt c.allocations j) ∧
    xmalloc bytes s = some
      (c.base + SIZEOF_BUCKET_HEAD + k * bucketSize b + SIZEOF_BLOCK_HEAD,
       { s with
         lists := s.lists.set b ((s.lists.getD b []).set i
           { c with allocations := FLIP c.allocations k })
         backrefs := (c.base + SIZEOF_BUCKET_HEAD + k * bucketSize b, c.base)
           :: s.backrefs }) := by
  obtain ⟨hk256, hbit0, hlow⟩ := NFFS_succ hNFFS
  refine ⟨⟨hbit0, hlow⟩, ?_, ?_, ?_⟩
  · rw [bitAt_FLIP hk256 hk256, if_pos rfl, hbit0]
    rfl
  · intro j hj hne
    rw [bitAt_FLIP hk256 hj, if_neg hne]
  · have hie : init_lists s = s := by
      simp [init_lists, hinit]
    have hne1 : ¬(Int.ofNat b = -1) := by
      intro hcon
      have h2 : (0 : Int) ≤ Int.ofNat b := Int.ofNat_nonneg b
      rw [hcon] at h2
      exact absurd h2 (by decide)
    have hb8lt : b < 8 ∧ bytes + SIZEOF_BLOCK_HEAD < bucketSize b := by
      rcases get_bucket_cases (bytes + SIZEOF_BLOCK_HEAD) with hgb2 | ⟨b2, hgb2, hb28, hlt2⟩
      · have hcontr : Int.ofNat b = -1 := hgb.symm.trans hgb2
        have h2 : (0 : Int) ≤ Int.ofNat b := Int.ofNat_nonneg b
        rw [hcontr] at h2
        exact absurd h2 (by decide)
      · have hbb : b = b2 := Int.ofNat.inj (hgb.symm.trans hgb2)
        subst hbb
        exact ⟨hb28, hlt2⟩
    have hm8 : (bytes + SIZEOF_BLOCK_HEAD) % 2 ^ 64 = bytes + SIZEOF_BLOCK_HEAD :=
      Nat.mod_eq_of_lt (Nat.lt_of_lt_of_le hb8lt.2
        (Nat.le_trans (bucketSize_le_4104 b hb8lt.1) (by decide)))
    simp only [xmalloc, find_free_bucket_space, hie]
    rw [hm8]
    rw [hgb, if_neg hne1]
    rw [show (Int.ofNat b).toNat = b from rfl]
    rw [hfind]
    simp only
    rw [hget]
    simp only
    rw [hNFFS, Nat.add_sub_cancel]

theorem C9_bucket_carve_witness :
    (bitAt cW.allocations 0 = false ∧ ∀ j, j < 0 → bitAt cW.allocations j = true) ∧
    bitAt (FLIP cW.allocations 0) 0 = true ∧
    (∀ j, j < 256 → j ≠ 0 → bitAt (FLIP cW.allocations 0) j = bitAt cW.allocations j) ∧
    xmalloc 16 sW = some
      (cW.base + SIZEOF_BUCKET_HEAD + 0 * bucketSize 1 + SIZEOF_BLOCK_HEAD,
       { sW with
         lists := sW.lists.set 1 ((sW.lists.getD 1 []).set 0
           { cW with allocations := FLIP cW.allocations 0 })
         backrefs := (cW.base + SIZEOF_BUCKET_HEAD + 0 * bucketSize 1, cW.base)
           :: sW.backrefs }) :=
  C9_bucket_carve 16 sW 1 0 0 cW (by decide) (by decide) (by decide) (by decide)
    (by decide)

/-- Claim C10 (confirmed): once the initialization flag is set, the
list-head setup routine leaves the whole allocator state unchanged, so the
call made at the start of every allocate never resets the per-class chunk
lists already built. -/
theorem C10_init_idempotent (s : AllocState) (h : s.inited = true) :
    init_lists s = s := by
  simp [init_lists, h]

theorem C10_init_idempotent_witness :
    init_lists (init_lists initState) = init_lists initState :=
  C10_init_idempotent (init_lists initState) (by decide)
